import Mathlib

/-!
Verification of the context-selection and prompt-assembly pipeline of the
`create-prompt` CLI, shallowly embedded from the JavaScript sources.

Modelling conventions:
* JS strings are `List Char` (`Str`); all strings in play are ASCII, so
  `Char.toLower` models `String.prototype.toLowerCase` faithfully.
* JS numbers are `ℚ`.  All numbers in the pipeline are small sums and
  quotients of integer-valued weights, so exact rational arithmetic models
  the value of every score and comparison in the sources.  Because the
  library's rational operations are marked irreducible, the embedding uses
  kernel-computable wrappers (`qAdd`, `qMul`, `qDiv`, `qNat`, `qOf`,
  `jsMin`) proved equal to the standard operations.
* JS regular-expression scans are modelled by explicit left-to-right
  scanners that attempt a match at each position and otherwise advance one
  character, exactly as the global-flag `RegExp.exec`/`replace` loops do.
* `Array.prototype.sort` with a consistent comparator is (per the
  ECMAScript spec) a stable sort; it is modelled by a stable insertion
  sort, which produces the same (uniquely determined) list.
-/

namespace CreatePrompt

/-! ## Kernel-computable rational arithmetic -/

def qAdd (a b : ℚ) : ℚ := mkRat (a.num * b.den + b.num * a.den) (a.den * b.den)

def qMul (a b : ℚ) : ℚ := mkRat (a.num * b.num) (a.den * b.den)

def qDiv (a b : ℚ) : ℚ :=
  if 0 ≤ b.num then mkRat (a.num * b.den) (a.den * b.num.toNat)
  else mkRat (-(a.num * b.den)) (a.den * (-b.num).toNat)

def qNat (n : ℕ) : ℚ := mkRat n 1

def qOf (n : ℤ) (d : ℕ) : ℚ := mkRat n d

/-- `Math.min` on numbers. -/
def jsMin (a b : ℚ) : ℚ := if a ≤ b then a else b

theorem qAdd_eq (a b : ℚ) : qAdd a b = a + b := by
  unfold qAdd
  rw [Rat.mkRat_eq_div]
  have ha : ((a.den : ℚ)) ≠ 0 := by positivity
  have hb : ((b.den : ℚ)) ≠ 0 := by positivity
  conv_rhs => rw [← Rat.num_div_den a, ← Rat.num_div_den b]
  rw [div_add_div _ _ ha hb]
  push_cast
  ring_nf

theorem qMul_eq (a b : ℚ) : qMul a b = a * b := by
  unfold qMul
  rw [Rat.mkRat_eq_div]
  have ha : ((a.den : ℚ)) ≠ 0 := by positivity
  have hb : ((b.den : ℚ)) ≠ 0 := by positivity
  conv_rhs => rw [← Rat.num_div_den a, ← Rat.num_div_den b]
  rw [div_mul_div_comm]
  push_cast
  ring_nf

theorem qDiv_eq (a b : ℚ) : qDiv a b = a / b := by
  have ha : ((a.den : ℚ)) ≠ 0 := by positivity
  have hb : ((b.den : ℚ)) ≠ 0 := by positivity
  have e1 : (a.num : ℚ) = a * (a.den : ℚ) := (div_eq_iff ha).mp (Rat.num_div_den a)
  have e2 : (b.num : ℚ) = b * (b.den : ℚ) := (div_eq_iff hb).mp (Rat.num_div_den b)
  rcases eq_or_ne b 0 with rfl | hbne
  · unfold qDiv
    simp [Rat.mkRat_eq_div]
  · have hbn : ((b.num : ℚ)) ≠ 0 := Int.cast_ne_zero.mpr (Rat.num_ne_zero.mpr hbne)
    have key : ((a.num : ℚ) * (b.den : ℚ)) / ((a.den : ℚ) * (b.num : ℚ)) = a / b := by
      rw [e1, e2]
      rw [show a * (a.den : ℚ) * (b.den : ℚ) = a * ((a.den : ℚ) * (b.den : ℚ)) from by ring]
      rw [show (a.den : ℚ) * (b * (b.den : ℚ)) = b * ((a.den : ℚ) * (b.den : ℚ)) from by ring]
      rw [mul_div_mul_right _ _ (mul_ne_zero ha hb)]
    unfold qDiv
    by_cases h : 0 ≤ b.num
    · simp only [h, if_true]
      rw [Rat.mkRat_eq_div]
      push_cast
      have hcast : ((b.num.toNat : ℚ)) = (b.num : ℚ) := by exact_mod_cast Int.toNat_of_nonneg h
      rw [hcast, key]
    · simp only [h, if_false]
      rw [Rat.mkRat_eq_div]
      push_cast
      have hcast : (((-b.num).toNat : ℚ)) = -(b.num : ℚ) := by
        exact_mod_cast Int.toNat_of_nonneg (by omega)
      rw [hcast, mul_neg, neg_div_neg_eq, key]

theorem qNat_eq (n : ℕ) : qNat n = n := by
  unfold qNat
  rw [Rat.mkRat_eq_div]
  simp

theorem qOf_eq (n : ℤ) (d : ℕ) : qOf n d = (n : ℚ) / d := by
  unfold qOf
  rw [Rat.mkRat_eq_div]

theorem jsMin_eq (a b : ℚ) : jsMin a b = min a b := by
  unfold jsMin
  rw [min_def]

/-! ## Strings -/

abbrev Str := List Char

def str (s : String) : Str := s.data

/-- `String.prototype.toLowerCase` (ASCII). -/
def lower (s : Str) : Str := s.map Char.toLower

/-- JS `text.includes(pattern)` : `pattern` occurs as a substring of `text`. -/
def containsSub : Str → Str → Bool
  | [], p => p.isEmpty
  | c :: t, p => p.isPrefixOf (c :: t) || containsSub t p

/-- Insertion into a JS `Set` (insertion-ordered, deduplicated). -/
def insertNew (l : List Str) (x : Str) : List Str :=
  if x ∈ l then l else l ++ [x]

/-- `[...new Set(list)]`. -/
def dedupList (l : List Str) : List Str := l.foldl insertNew []

/-- Whitespace characters recognised by `\s` (the ASCII ones). -/
def isWS (c : Char) : Bool := c == ' ' || c == '\t' || c == '\n' || c == '\r'

theorem length_dropWhile_le (p : α → Bool) (l : List α) :
    (l.dropWhile p).length ≤ l.length := by
  induction l with
  | nil => simp [List.dropWhile]
  | cons a l ih =>
    by_cases h : p a
    · simp [List.dropWhile, h]
      omega
    · simp [List.dropWhile, h]

/-- Split on maximal runs of characters satisfying `d` (fuel-based
structural recursion; one character is consumed per step, so fuel equal to
the length always suffices).  JS `split` on a `+`-quantified class also
yields an empty leading piece (and a trailing one, which the callers below
always discard by filtering on token length). -/
def splitRunsF (d : Char → Bool) : ℕ → Str → List Str
  | 0, _ => []
  | _ + 1, [] => []
  | fuel + 1, c :: t =>
    (c :: t).takeWhile (fun x => !(d x)) ::
      splitRunsF d fuel (((c :: t).dropWhile (fun x => !(d x))).dropWhile d)

def splitRuns (d : Char → Bool) (l : Str) : List Str := splitRunsF d l.length l

/-! ## Relevance Service (`src/services/relevanceService.js`) -/

/-- Synonym database for keyword expansion (`SYNONYMS`). -/
def SYNONYMS : List (Str × List Str) :=
  [ (str "seo", [str "meta", str "og:", str "open graph", str "opengraph", str "twitter card", str "sitemap", str "robots", str "canonical", str "metadata", str "search engine"]),
    (str "auth", [str "login", str "logout", str "session", str "token", str "jwt", str "oauth", str "password", str "authentication", str "authorization", str "signin", str "signup", str "register", str "credential"]),
    (str "api", [str "endpoint", str "route", str "rest", str "graphql", str "fetch", str "axios", str "request", str "response", str "controller", str "handler"]),
    (str "ui", [str "component", str "button", str "modal", str "form", str "layout", str "style", str "css", str "design", str "interface", str "view", str "template", str "render"]),
    (str "database", [str "query", str "migration", str "model", str "schema", str "prisma", str "mongoose", str "sql", str "mongodb", str "postgres", str "mysql", str "table", str "collection"]),
    (str "testing", [str "test", str "spec", str "jest", str "mocha", str "unit", str "integration", str "e2e", str "coverage", str "assert", str "mock"]),
    (str "performance", [str "optimize", str "cache", str "speed", str "lazy", str "bundle", str "minify", str "compress", str "memory", str "profil"]),
    (str "security", [str "xss", str "csrf", str "injection", str "sanitize", str "escape", str "validate", str "encrypt", str "hash", str "secure"]),
    (str "config", [str "configuration", str "settings", str "environment", str "env", str "dotenv", str "options", str "setup"]),
    (str "docs", [str "documentation", str "readme", str "comment", str "jsdoc", str "typedoc", str "wiki", str "guide"]),
    (str "error", [str "bug", str "fix", str "issue", str "problem", str "crash", str "exception", str "throw", str "catch", str "debug"]),
    (str "deploy", [str "deployment", str "ci", str "cd", str "pipeline", str "docker", str "kubernetes", str "vercel", str "netlify", str "heroku"]) ]

/-- Common word stems for matching variations (`STEMS`). -/
def STEMS : List (Str × List Str) :=
  [ (str "authenticat", [str "authenticate", str "authentication", str "authenticating", str "authenticated"]),
    (str "optimi", [str "optimize", str "optimization", str "optimizing", str "optimized", str "optimizer"]),
    (str "valid", [str "validate", str "validation", str "validating", str "validated", str "validator"]),
    (str "config", [str "config", str "configure", str "configuration", str "configuring", str "configured"]),
    (str "implement", [str "implement", str "implementation", str "implementing", str "implemented"]),
    (str "generat", [str "generate", str "generation", str "generating", str "generated", str "generator"]),
    (str "creat", [str "create", str "creation", str "creating", str "created", str "creator"]),
    (str "updat", [str "update", str "updating", str "updated", str "updater"]),
    (str "delet", [str "delete", str "deletion", str "deleting", str "deleted"]),
    (str "render", [str "render", str "rendering", str "rendered", str "renderer"]) ]

/-- Stop words of the relevance service (`isStopWord` there). -/
def relStopWords : List Str :=
  [str "a", str "an", str "the", str "and", str "or", str "but", str "in", str "on", str "at", str "to", str "for",
   str "of", str "with", str "by", str "from", str "as", str "is", str "was", str "are", str "were", str "been",
   str "be", str "have", str "has", str "had", str "do", str "does", str "did", str "will", str "would",
   str "could", str "should", str "may", str "might", str "must", str "that", str "this", str "these",
   str "those", str "it", str "its", str "my", str "your", str "our", str "their", str "i", str "me", str "we", str "us",
   str "add", str "make", str "get", str "set", str "put", str "new", str "use", str "all", str "can", str "just"]

/-- Delimiters of the keyword tokenizer, the class of whitespace, comma,
period, hyphen and underscore. -/
def isKwDelim (c : Char) : Bool := isWS c || c == ',' || c == '.' || c == '-' || c == '_'

/-- The fixed list of known multi-word phrases (`extractPhrases`). -/
def knownPhrases : List Str :=
  [str "open graph", str "twitter card", str "meta tags", str "dark mode", str "light mode",
   str "drag and drop", str "file upload", str "form validation", str "error handling",
   str "api endpoint", str "rest api", str "graphql api", str "user authentication",
   str "password reset", str "email verification", str "two factor", str "2fa"]

def extractPhrases (text : Str) : List Str :=
  knownPhrases.filter (fun p => containsSub text p)

/-- `extractTaskKeywords`: tokens of length > 2 that are not stop words,
plus known phrases, deduplicated. -/
def extractTaskKeywords (text : Str) : List Str :=
  let normalized := lower text
  let words := ((splitRuns isKwDelim normalized).filter (fun w => 2 < w.length)).filter
    (fun w => w ∉ relStopWords)
  dedupList (words ++ extractPhrases normalized)

/-- One step of `expandKeywords`: the additions caused by one keyword. -/
def expandOne (acc : List Str) (kw : Str) : List Str :=
  let s1 := SYNONYMS.foldl
    (fun acc e =>
      if kw ∈ e.2 ∨ kw = e.1 then insertNew (e.2.foldl insertNew acc) e.1 else acc) acc
  STEMS.foldl
    (fun acc e => if kw ∈ e.2 ∨ e.1.isPrefixOf kw then e.2.foldl insertNew acc else acc) s1

/-- `expandKeywords`: the insertion-ordered set of keywords together with
their synonyms and stem variations. -/
def expandKeywords (keywords : List Str) : List Str :=
  keywords.foldl expandOne (dedupList keywords)

/-- Scoring weights (exact 3, stem 2, related 1). -/
def relExact : ℚ := qNat 3

def relStem : ℚ := qNat 2

def relRelated : ℚ := qNat 1

/-- Numerator contribution of the exact-match loop of `scoreRelevance`. -/
def relScoreExact (t : Str) (keywords : List Str) : ℚ :=
  keywords.foldl (fun s kw => if containsSub t kw then qAdd s relExact else s) 0

/-- Numerator contribution of the expanded-keyword loop of `scoreRelevance`. -/
def relScoreExpanded (t : Str) (keywords : List Str) : ℚ :=
  (expandKeywords keywords).foldl
    (fun s e => if e ∉ keywords ∧ containsSub t e then qAdd s relRelated else s) 0

/-- The denominator (`maxScore`) of `scoreRelevance`: the exact weight per
original keyword plus the capped contribution of the expanded set. -/
def relMaxScore (keywords : List Str) : ℚ :=
  qAdd (qMul relExact (qNat keywords.length))
    (jsMin (qMul (qNat (expandKeywords keywords).length) relRelated)
      (qMul (qNat keywords.length) relStem))

/-- `scoreRelevance(text, keywords)` with the default options
(`expandSynonyms = true`, case-insensitive, default weights). -/
def scoreRelevance (text : Str) (keywords : List Str) : ℚ :=
  if text = [] ∨ keywords = [] then 0
  else
    let t := lower text
    let s := qAdd (relScoreExact t keywords) (relScoreExpanded t keywords)
    if 0 < relMaxScore keywords then jsMin (qDiv s (relMaxScore keywords)) 1 else 0

/-! Small facts about the relevance scorer. -/

theorem relScoreExact_nonneg_aux (t : Str) (l : List Str) (init : ℚ) (h : 0 ≤ init) :
    0 ≤ l.foldl (fun s kw => if containsSub t kw then qAdd s relExact else s) init := by
  induction l generalizing init with
  | nil => exact h
  | cons a l ih =>
    simp only [List.foldl_cons]
    by_cases hc : containsSub t a
    · refine ih _ ?_
      rw [if_pos hc, qAdd_eq]
      have : relExact = 3 := by rw [relExact, qNat_eq]; norm_num
      rw [this]; linarith
    · refine ih _ ?_
      rw [if_neg hc]; exact h

theorem relScoreExpanded_nonneg_aux (t : Str) (kws : List Str) (l : List Str) (init : ℚ)
    (h : 0 ≤ init) :
    0 ≤ l.foldl (fun s e => if e ∉ kws ∧ containsSub t e then qAdd s relRelated else s) init := by
  induction l generalizing init with
  | nil => exact h
  | cons a l ih =>
    simp only [List.foldl_cons]
    by_cases hc : a ∉ kws ∧ containsSub t a
    · refine ih _ ?_
      rw [if_pos hc, qAdd_eq]
      have : relRelated = 1 := by rw [relRelated, qNat_eq]; norm_num
      rw [this]; linarith
    · refine ih _ ?_
      rw [if_neg hc]; exact h

/-- **C4.** For every text and keyword list, `scoreRelevance` returns a value
in the closed interval `[0, 1]`; an empty keyword list yields `0`, an empty
text yields `0`, and whenever the computed denominator (`maxScore`) is `0`
the score is `0`. -/
theorem scoreRelevance_bounds (text : Str) (keywords : List Str) :
    0 ≤ scoreRelevance text keywords ∧ scoreRelevance text keywords ≤ 1 ∧
    scoreRelevance text [] = 0 ∧ scoreRelevance [] keywords = 0 ∧
    (relMaxScore keywords = 0 → scoreRelevance text keywords = 0) := by
  have hbase : ∀ (t : Str) (kws : List Str),
      0 ≤ scoreRelevance t kws ∧ scoreRelevance t kws ≤ 1 := by
    intro t kws
    unfold scoreRelevance
    by_cases hg : t = [] ∨ kws = []
    · simp [hg]
    · simp only [hg, if_false]
      by_cases hm : 0 < relMaxScore kws
      · simp only [hm, if_true]
        rw [jsMin_eq]
        constructor
        · apply le_min
          · rw [qDiv_eq]
            apply div_nonneg _ (le_of_lt hm)
            have h1 := relScoreExact_nonneg_aux (lower t) kws 0 (le_refl 0)
            have h2 := relScoreExpanded_nonneg_aux (lower t) kws (expandKeywords kws) 0 (le_refl 0)
            rw [qAdd_eq]
            unfold relScoreExact relScoreExpanded
            linarith
          · norm_num
        · exact min_le_right _ _
      · simp [hm]
  refine ⟨(hbase text keywords).1, (hbase text keywords).2, ?_, ?_, ?_⟩
  · unfold scoreRelevance; simp
  · unfold scoreRelevance; simp
  · intro h
    unfold scoreRelevance
    by_cases hg : text = [] ∨ keywords = []
    · simp [hg]
    · simp [hg, h]

/-- Witness for C4: the zero-denominator clause at a concrete input. -/
theorem scoreRelevance_bounds_witness :
    relMaxScore ([] : List Str) = 0 ∧ scoreRelevance (str "abc") [] = 0 :=
  ⟨by decide, (scoreRelevance_bounds (str "abc") []).2.2.2.2 (by decide)⟩


/-! ## Task Type Service (`src/services/taskTypeService.js`) -/

structure TaskConfig where
  name : Str
  patterns : List Str
  relevantDirs : List Str
  relevantFiles : List Str
  requirements : List Str
  excludeContext : List Str
  priority : List Str
deriving DecidableEq

/-- The fixed task-type catalog (`TASK_TYPES`), in definition order. -/
def TASK_TYPES : List (Str × TaskConfig) :=
  [ (str "seo",
     { name := str "SEO & Meta",
       patterns := [str "seo", str "meta", str "og:", str "open graph", str "opengraph", str "twitter card", str "sitemap", str "robots", str "canonical", str "metadata", str "structured data", str "schema.org"],
       relevantDirs := [str "app/", str "pages/", str "components/seo", str "lib/meta", str "src/pages", str "views/", str "layouts/", str "templates/"],
       relevantFiles := [str "layout", str "metadata", str "seo", str "head", str "_document", str "_app", str "base", str "master"],
       requirements := [str "Include all required Open Graph meta tags", str "Add Twitter Card meta tags", str "Ensure canonical URL is set correctly", str "Validate meta tag content lengths"],
       excludeContext := [str "latest_commit", str "history"],
       priority := [str "project", str "standards", str "persona"] }),
    (str "api",
     { name := str "API Development",
       patterns := [str "api", str "endpoint", str "route", str "rest", str "graphql", str "backend", str "controller", str "handler", str "middleware", str "request", str "response"],
       relevantDirs := [str "api/", str "routes/", str "controllers/", str "services/", str "handlers/", str "middleware/", str "src/api", str "app/Http"],
       relevantFiles := [str "route", str "handler", str "controller", str "middleware", str "service", str "api"],
       requirements := [str "Use appropriate HTTP methods (GET, POST, PUT, DELETE)", str "Return proper status codes", str "Include error response format", str "Add request validation", str "Document API endpoints"],
       excludeContext := [],
       priority := [str "project", str "standards", str "api", str "persona"] }),
    (str "auth",
     { name := str "Authentication",
       patterns := [str "auth", str "authentication", str "authorization", str "login", str "logout", str "signup", str "register", str "password", str "session", str "token", str "jwt", str "oauth", str "sso", str "credential"],
       relevantDirs := [str "auth/", str "authentication/", str "middleware/", str "guards/", str "policies/", str "app/Auth", str "lib/auth"],
       relevantFiles := [str "auth", str "login", str "session", str "token", str "middleware", str "guard", str "policy", str "user"],
       requirements := [str "Implement secure password handling", str "Use proper session management", str "Add CSRF protection", str "Validate credentials securely", str "Handle authentication errors gracefully"],
       excludeContext := [],
       priority := [str "project", str "standards", str "auth", str "security", str "persona"] }),
    (str "ui",
     { name := str "UI Components",
       patterns := [str "component", str "button", str "modal", str "form", str "layout", str "style", str "css", str "design", str "interface", str "view", str "template", str "frontend", str "responsive", str "animation", str "dark mode", str "light mode", str "theme"],
       relevantDirs := [str "components/", str "ui/", str "views/", str "styles/", str "css/", str "layouts/", str "src/components", str "app/components"],
       relevantFiles := [str "component", str "button", str "modal", str "form", str "layout", str "style", str "css", str "view"],
       requirements := [str "Follow component design patterns", str "Ensure accessibility (a11y)", str "Implement responsive design", str "Use consistent styling"],
       excludeContext := [],
       priority := [str "project", str "standards", str "design", str "persona"] }),
    (str "database",
     { name := str "Database",
       patterns := [str "database", str "query", str "migration", str "model", str "schema", str "prisma", str "mongoose", str "sequelize", str "sql", str "mongodb", str "postgres", str "mysql", str "table", str "collection", str "index", str "relation"],
       relevantDirs := [str "models/", str "migrations/", str "database/", str "db/", str "prisma/", str "schemas/", str "entities/"],
       relevantFiles := [str "model", str "migration", str "schema", str "entity", str "repository", str "query"],
       requirements := [str "Use parameterized queries to prevent SQL injection", str "Add proper indexes for performance", str "Implement database transactions where needed", str "Handle database errors gracefully"],
       excludeContext := [],
       priority := [str "project", str "standards", str "database", str "persona"] }),
    (str "testing",
     { name := str "Testing",
       patterns := [str "test", str "spec", str "jest", str "mocha", str "vitest", str "cypress", str "playwright", str "unit test", str "integration", str "e2e", str "coverage", str "mock", str "stub", str "fixture", str "write test", str "add test"],
       relevantDirs := [str "tests/", str "test/", str "__tests__/", str "spec/", str "cypress/", str "e2e/"],
       relevantFiles := [str "test", str "spec", str "mock", str "fixture", str "factory", str "helper"],
       requirements := [str "Write meaningful test descriptions", str "Cover edge cases", str "Use appropriate test isolation", str "Mock external dependencies"],
       excludeContext := [str "history"],
       priority := [str "project", str "standards", str "testing", str "persona"] }),
    (str "bugfix",
     { name := str "Bug Fix",
       patterns := [str "fix", str "bug", str "issue", str "problem", str "error", str "crash", str "broken", str "not working", str "fails", str "debug", str "patch", str "hotfix"],
       relevantDirs := [],
       relevantFiles := [],
       requirements := [str "Identify root cause before fixing", str "Add regression tests", str "Document the fix", str "Consider edge cases"],
       excludeContext := [],
       priority := [str "project", str "standards", str "latest_commit", str "history", str "persona"] }),
    (str "performance",
     { name := str "Performance",
       patterns := [str "performance", str "optimize", str "speed", str "slow", str "fast", str "cache", str "lazy", str "bundle", str "minify", str "compress", str "memory", str "profile", str "benchmark"],
       relevantDirs := [str "src/", str "lib/", str "utils/"],
       relevantFiles := [str "cache", str "optimize", str "performance", str "bundle", str "config"],
       requirements := [str "Measure before and after optimization", str "Use appropriate caching strategies", str "Avoid premature optimization", str "Consider trade-offs"],
       excludeContext := [],
       priority := [str "project", str "standards", str "architecture", str "persona"] }),
    (str "refactor",
     { name := str "Refactoring",
       patterns := [str "refactor", str "clean", str "improve", str "restructure", str "reorganize", str "simplify", str "deduplicate", str "extract", str "rename"],
       relevantDirs := [],
       relevantFiles := [],
       requirements := [str "Ensure tests pass before and after", str "Make incremental changes", str "Preserve existing behavior", str "Document significant changes"],
       excludeContext := [],
       priority := [str "project", str "standards", str "architecture", str "persona"] }),
    (str "deploy",
     { name := str "Deployment",
       patterns := [str "deploy", str "deployment", str "ci", str "cd", str "pipeline", str "docker", str "kubernetes", str "k8s", str "vercel", str "netlify", str "heroku", str "aws", str "production", str "staging"],
       relevantDirs := [str ".github/", str "deploy/", str "docker/", str "k8s/", str "scripts/", str "infra/"],
       relevantFiles := [str "dockerfile", str "docker-compose", str "workflow", str "pipeline", str "deploy", str "config"],
       requirements := [str "Validate environment configuration", str "Test deployment process", str "Ensure rollback capability", str "Check security settings"],
       excludeContext := [],
       priority := [str "project", str "standards", str "deployment", str "persona"] }) ]

/-- The configuration returned for the `general` fallback type. -/
def generalConfig : TaskConfig :=
  { name := str "General", patterns := [], relevantDirs := [], relevantFiles := [],
    requirements := [], excludeContext := [],
    priority := [str "project", str "standards", str "persona"] }

/-- The match/strong-match accumulation loop of `calculateTypeScore`. -/
def typeScoreCounts (text : Str) (patterns : List Str) : ℕ × Bool :=
  patterns.foldl
    (fun acc p =>
      if containsSub text p then (acc.1 + 1, acc.2 || decide (4 < p.length)) else acc)
    (0, false)

/-- `calculateTypeScore(text, patterns)`. -/
def calculateTypeScore (text : Str) (patterns : List Str) : ℚ :=
  if patterns = [] then 0
  else
    let mc := typeScoreCounts text patterns
    if mc.1 = 0 then 0
    else
      let base := if mc.2 then qOf 7 10 else qDiv (qNat mc.1) (qNat patterns.length)
      let bonus := if 1 < mc.1 then qOf 1 5 else 0
      jsMin (qAdd base bonus) 1

/-- The best-match accumulation loop of `detectTaskType` (strict `>` update). -/
def detectLoop (text : Str) : Option (Str × TaskConfig) × ℚ :=
  TASK_TYPES.foldl
    (fun acc e =>
      let s := calculateTypeScore text e.2.patterns
      if acc.2 < s then (some e, s) else acc)
    (none, 0)

structure TaskTypeResult where
  type : Str
  confidence : ℚ
  config : TaskConfig
deriving DecidableEq

def generalResult : TaskTypeResult := ⟨str "general", 0, generalConfig⟩

/-- `detectTaskType(intent)` on the intent text (the source lower-cases the
raw text before matching). -/
def detectTaskType (input : Str) : TaskTypeResult :=
  match detectLoop (lower input) with
  | (some e, hi) => if qOf 1 2 ≤ hi then ⟨e.1, hi, e.2⟩ else generalResult
  | (none, _) => generalResult

/-- `shouldIncludeContext(taskType, contextName)`: false exactly when the
task type exists in the catalog and its exclusion list names the context. -/
def shouldIncludeContext (taskType : Str) (contextName : Str) : Bool :=
  match (TASK_TYPES.find? (fun e => e.1 == taskType)).map Prod.snd with
  | none => true
  | some cfg => !(cfg.excludeContext.contains contextName)

/-! ## C1: characterization of the classifier -/

/-- `Math.max` on numbers (kernel-computable). -/
def jsMax (a b : ℚ) : ℚ := if a ≤ b then b else a

theorem jsMax_eq (a b : ℚ) : jsMax a b = max a b := by
  unfold jsMax
  rw [max_def]

/-- Number of catalog patterns occurring in the text. -/
def countMatches (text : Str) (patterns : List Str) : ℕ :=
  (patterns.filter (fun p => containsSub text p)).length

/-- Whether some matched pattern has length greater than 4. -/
def anyStrong (text : Str) (patterns : List Str) : Bool :=
  patterns.any (fun p => containsSub text p && decide (4 < p.length))

/-- The per-category scoring rule exactly as the specification words it:
no match scores 0; a matched pattern of length over 4 gives base 0.7,
otherwise the base is matches/totalPatterns; a bonus 0.2 for more than one
match; clamped to 1. -/
def specTypeScore (text : Str) (patterns : List Str) : ℚ :=
  if countMatches text patterns = 0 then 0
  else
    let base : ℚ :=
      if anyStrong text patterns then 7/10
      else (countMatches text patterns : ℚ) / (patterns.length : ℚ)
    let bonus : ℚ := if 1 < countMatches text patterns then 1/5 else 0
    min (base + bonus) 1

/-- The highest category score over the catalog for a given input. -/
def maxTypeScore (input : Str) : ℚ :=
  (TASK_TYPES.map (fun e => calculateTypeScore (lower input) e.2.patterns)).foldl jsMax 0

theorem typeScoreCounts_aux (text : Str) (l : List Str) (m0 : ℕ) (s0 : Bool) :
    l.foldl
      (fun acc p => if containsSub text p then (acc.1 + 1, acc.2 || decide (4 < p.length)) else acc)
      (m0, s0)
      = (m0 + countMatches text l, s0 || anyStrong text l) := by
  induction l generalizing m0 s0 with
  | nil => simp [countMatches, anyStrong]
  | cons a l ih =>
    cases h : containsSub text a
    · simp [List.foldl_cons, h, ih, countMatches, anyStrong, List.filter_cons, List.any_cons]
    · simp [List.foldl_cons, h, ih, countMatches, anyStrong, List.filter_cons, List.any_cons,
        Prod.mk.injEq, Bool.or_assoc]
      omega

theorem typeScoreCounts_eq (text : Str) (patterns : List Str) :
    typeScoreCounts text patterns = (countMatches text patterns, anyStrong text patterns) := by
  have := typeScoreCounts_aux text patterns 0 false
  simpa [typeScoreCounts] using this

theorem calculateTypeScore_eq_spec (t : Str) (patterns : List Str) :
    calculateTypeScore t patterns = specTypeScore t patterns := by
  unfold calculateTypeScore specTypeScore
  rw [typeScoreCounts_eq]
  by_cases hp : patterns = []
  · subst hp
    simp [countMatches]
  · simp only [hp, if_false]
    by_cases hm : countMatches t patterns = 0
    · simp [hm]
    · simp only [hm, if_false]
      cases hs : anyStrong t patterns
      · by_cases hb : 1 < countMatches t patterns
        · simp only [hs, hb, if_true, Bool.false_eq_true, if_false]
          rw [jsMin_eq, qAdd_eq, qDiv_eq, qNat_eq, qNat_eq, qOf_eq]
          norm_num
        · simp only [hs, hb, Bool.false_eq_true, if_false]
          rw [jsMin_eq, qAdd_eq, qDiv_eq, qNat_eq, qNat_eq]
      · by_cases hb : 1 < countMatches t patterns
        · simp only [hs, hb, if_true]
          rw [jsMin_eq, qAdd_eq, qOf_eq, qOf_eq]
          norm_num
        · simp only [hs, hb, if_true, if_false]
          rw [jsMin_eq, qAdd_eq, qOf_eq]
          norm_num

/-- The best-score fold of `detectTaskType`, abstracted over the score. -/
def bestFold {α : Type} (f : α → ℚ) (l : List α) (init : Option α × ℚ) : Option α × ℚ :=
  l.foldl (fun acc e => if acc.2 < f e then (some e, f e) else acc) init

theorem detectLoop_eq_bestFold (text : Str) :
    detectLoop text = bestFold (fun e => calculateTypeScore text e.2.patterns) TASK_TYPES (none, 0) :=
  rfl

theorem le_foldl_jsMax (l : List ℚ) (h0 : ℚ) : h0 ≤ l.foldl jsMax h0 := by
  induction l generalizing h0 with
  | nil => simp
  | cons a l ih =>
    simp only [List.foldl_cons]
    calc h0 ≤ jsMax h0 a := by rw [jsMax_eq]; exact le_max_left _ _
    _ ≤ _ := ih _

theorem mem_le_foldl_jsMax (l : List ℚ) (h0 x : ℚ) (hx : x ∈ l) : x ≤ l.foldl jsMax h0 := by
  induction l generalizing h0 with
  | nil => simp at hx
  | cons a l ih =>
    simp only [List.foldl_cons]
    rcases List.mem_cons.mp hx with rfl | hx
    · calc x ≤ jsMax h0 x := by rw [jsMax_eq]; exact le_max_right _ _
      _ ≤ _ := le_foldl_jsMax _ _
    · exact ih _ hx

theorem foldl_jsMax_lt (l : List ℚ) (h0 c : ℚ) (hall : ∀ x ∈ l, x < c) (h : h0 < c) :
    l.foldl jsMax h0 < c := by
  induction l generalizing h0 with
  | nil => simpa
  | cons a l ih =>
    simp only [List.foldl_cons]
    refine ih _ (fun x hx => hall x (List.mem_cons_of_mem _ hx)) ?_
    rw [jsMax_eq, max_lt_iff]
    exact ⟨h, hall a (List.mem_cons_self _ _)⟩

theorem bestFold_snd {α : Type} (f : α → ℚ) (l : List α) (b0 : Option α) (h0 : ℚ) :
    (bestFold f l (b0, h0)).2 = (l.map f).foldl jsMax h0 := by
  induction l generalizing b0 h0 with
  | nil => rfl
  | cons a l ih =>
    simp only [bestFold, List.foldl_cons, List.map_cons] at *
    by_cases h : h0 < f a
    · rw [if_pos h, ih]
      congr 1
      rw [jsMax_eq]
      exact (max_eq_right (le_of_lt h)).symm
    · rw [if_neg h, ih]
      congr 1
      rw [jsMax_eq]
      exact (max_eq_left (le_of_not_lt h)).symm

theorem bestFold_stay {α : Type} (f : α → ℚ) (l : List α) (b0 : Option α) (h0 : ℚ)
    (h : ∀ e ∈ l, f e ≤ h0) : bestFold f l (b0, h0) = (b0, h0) := by
  induction l with
  | nil => rfl
  | cons a l ih =>
    simp only [bestFold, List.foldl_cons]
    rw [if_neg (not_lt.mpr (h a (List.mem_cons_self _ _)))]
    exact ih (fun e he => h e (List.mem_cons_of_mem _ he))

theorem bestFold_find {α : Type} (f : α → ℚ) (l : List α) (b0 : Option α) (h0 : ℚ)
    (h : h0 < (bestFold f l (b0, h0)).2) :
    ∃ e, (bestFold f l (b0, h0)).1 = some e ∧ f e = (bestFold f l (b0, h0)).2 ∧
      l.find? (fun x => decide ((bestFold f l (b0, h0)).2 ≤ f x)) = some e := by
  induction l generalizing b0 h0 with
  | nil => simp [bestFold] at h
  | cons a l ih =>
    have hstep : bestFold f (a :: l) (b0, h0)
        = if h0 < f a then bestFold f l (some a, f a) else bestFold f l (b0, h0) := by
      simp only [bestFold, List.foldl_cons]
      by_cases hc : h0 < f a
      · rw [if_pos hc, if_pos hc]
      · rw [if_neg hc, if_neg hc]
    by_cases hc : h0 < f a
    · rw [hstep, if_pos hc] at h ⊢
      by_cases hall : ∀ e ∈ l, f e ≤ f a
      · rw [bestFold_stay f l _ _ hall]
        refine ⟨a, rfl, rfl, ?_⟩
        exact List.find?_cons_of_pos _ (by simp)
      · push_neg at hall
        obtain ⟨e0, he0, hlt⟩ := hall
        have hlt2 : f a < (bestFold f l (some a, f a)).2 := by
          rw [bestFold_snd]
          calc f a < f e0 := hlt
          _ ≤ _ := mem_le_foldl_jsMax _ _ _ (List.mem_map_of_mem f he0)
        obtain ⟨e, h1, h2, h3⟩ := ih (some a) (f a) hlt2
        refine ⟨e, h1, h2, ?_⟩
        rw [List.find?_cons_of_neg _ ?_, h3]
        show ¬decide ((bestFold f l (some a, f a)).2 ≤ f a) = true
        simp only [decide_eq_true_eq]
        exact not_le.mpr hlt2
    · rw [hstep, if_neg hc] at h ⊢
      have hfa : f a ≤ h0 := le_of_not_lt hc
      obtain ⟨e, h1, h2, h3⟩ := ih b0 h0 h
      refine ⟨e, h1, h2, ?_⟩
      rw [List.find?_cons_of_neg _ ?_, h3]
      show ¬decide ((bestFold f l (b0, h0)).2 ≤ f a) = true
      simp only [decide_eq_true_eq]
      exact not_le.mpr (by linarith)

theorem maxTypeScore_eq_loop (input : Str) :
    (detectLoop (lower input)).2 = maxTypeScore input := by
  rw [detectLoop_eq_bestFold, bestFold_snd]
  rfl

theorem detectTaskType_eq_some (input : Str) (e : Str × TaskConfig) (hi : ℚ)
    (hd : detectLoop (lower input) = (some e, hi)) :
    detectTaskType input = if qOf 1 2 ≤ hi then ⟨e.1, hi, e.2⟩ else generalResult := by
  unfold detectTaskType
  rw [hd]

theorem detectTaskType_eq_none (input : Str) (hi : ℚ)
    (hd : detectLoop (lower input) = (none, hi)) :
    detectTaskType input = generalResult := by
  unfold detectTaskType
  rw [hd]

/-- **C1.** For every input text the classifier scores each catalog category
by the specification's rule (`specTypeScore`): 0 without a match, base 0.7
when a matched pattern is longer than 4 characters and matches/totalPatterns
otherwise, bonus 0.2 for more than one match, clamped to 1.  The classifier
returns the first-defined category attaining the strictly highest score
provided that score is at least 0.5, and otherwise the `general` result with
confidence 0 and an empty requirements list; in particular a text whose
matches are all weak (at most one per category, no matched pattern longer
than 4, matches/totalPatterns below 0.5) classifies as `general`. -/
theorem taskType_classifier_spec (input : Str) :
    (∀ (t : Str) (patterns : List Str), calculateTypeScore t patterns = specTypeScore t patterns) ∧
    (maxTypeScore input < qOf 1 2 →
      (detectTaskType input).type = str "general" ∧ (detectTaskType input).confidence = 0 ∧
        (detectTaskType input).config.requirements = []) ∧
    (qOf 1 2 ≤ maxTypeScore input →
      ∃ e, TASK_TYPES.find?
          (fun x => decide (maxTypeScore input ≤ calculateTypeScore (lower input) x.2.patterns))
            = some e ∧
        detectTaskType input = ⟨e.1, maxTypeScore input, e.2⟩) ∧
    ((∀ e ∈ TASK_TYPES, countMatches (lower input) e.2.patterns ≤ 1 ∧
        (∀ p ∈ e.2.patterns, containsSub (lower input) p = true → p.length ≤ 4) ∧
        2 * countMatches (lower input) e.2.patterns < e.2.patterns.length) →
      (detectTaskType input).type = str "general") := by
  have hlow : maxTypeScore input < qOf 1 2 → detectTaskType input = generalResult := by
    intro h
    rcases hd : detectLoop (lower input) with ⟨b, hi⟩
    have hhi : hi = maxTypeScore input := by rw [← maxTypeScore_eq_loop input, hd]
    cases b with
    | none => exact detectTaskType_eq_none input hi hd
    | some e =>
      rw [detectTaskType_eq_some input e hi hd, if_neg]
      rw [hhi]
      exact not_le.mpr h
  refine ⟨calculateTypeScore_eq_spec, ?_, ?_, ?_⟩
  · intro h
    rw [hlow h]
    exact ⟨rfl, rfl, rfl⟩
  · intro h
    have h0 : (0 : ℚ) < maxTypeScore input := by
      refine lt_of_lt_of_le ?_ h
      rw [qOf_eq]
      norm_num
    have hM : (bestFold (fun e => calculateTypeScore (lower input) e.2.patterns)
        TASK_TYPES ((none : Option (Str × TaskConfig)), (0 : ℚ))).2 = maxTypeScore input := by
      rw [← detectLoop_eq_bestFold]
      exact maxTypeScore_eq_loop input
    obtain ⟨e, h1, h2, h3⟩ := bestFold_find
      (fun e => calculateTypeScore (lower input) e.2.patterns) TASK_TYPES none 0 (by rw [hM]; exact h0)
    rw [hM] at h3
    refine ⟨e, h3, ?_⟩
    rcases hd : detectLoop (lower input) with ⟨b, hi⟩
    have hbf : bestFold (fun e => calculateTypeScore (lower input) e.2.patterns)
        TASK_TYPES ((none : Option (Str × TaskConfig)), (0 : ℚ)) = (b, hi) := by
      rw [← detectLoop_eq_bestFold, hd]
    rw [hbf] at h1 h2 hM
    simp only at h1 hM
    subst h1
    rw [detectTaskType_eq_some input e hi hd, if_pos (by rw [hM]; exact h), hM]
  · intro hall
    have hsc : ∀ e ∈ TASK_TYPES,
        calculateTypeScore (lower input) e.2.patterns < qOf 1 2 := by
      intro e he
      obtain ⟨hc1, hc2, hc3⟩ := hall e he
      rw [calculateTypeScore_eq_spec]
      unfold specTypeScore
      by_cases hm : countMatches (lower input) e.2.patterns = 0
      · rw [if_pos hm, qOf_eq]
        norm_num
      · rw [if_neg hm]
        have hstrong : anyStrong (lower input) e.2.patterns = false := by
          unfold anyStrong
          rw [List.any_eq_false]
          intro p hp
          simp only [Bool.and_eq_true, decide_eq_true_eq, not_and]
          intro hcont hlen
          have := hc2 p hp hcont
          omega
        have hb : ¬ 1 < countMatches (lower input) e.2.patterns := by omega
        simp only [hstrong, Bool.false_eq_true, if_false, hb]
        have hlen : 0 < e.2.patterns.length := by omega
        have hdiv : (countMatches (lower input) e.2.patterns : ℚ) / (e.2.patterns.length : ℚ)
            < 1 / 2 := by
          rw [div_lt_div_iff₀ (by exact_mod_cast hlen) (by norm_num)]
          have : (countMatches (lower input) e.2.patterns : ℚ) * 2
              < (e.2.patterns.length : ℚ) := by
            exact_mod_cast (by omega :
              countMatches (lower input) e.2.patterns * 2 < e.2.patterns.length)
          linarith
        rw [add_zero, qOf_eq]
        push_cast
        exact lt_of_le_of_lt (min_le_left _ _) hdiv
    have hmax : maxTypeScore input < qOf 1 2 := by
      unfold maxTypeScore
      refine foldl_jsMax_lt _ _ _ ?_ ?_
      · intro x hx
        obtain ⟨e, he, rfl⟩ := List.mem_map.mp hx
        exact hsc e he
      · rw [qOf_eq]
        norm_num
    rw [hlow hmax]
    rfl

/-- Witness for C1: the weak-match clause at `"og: only"` (classified
`general`) and the first-argmax clause at `"fix crash"`. -/
theorem taskType_classifier_spec_witness :
    (detectTaskType (str "og: only")).type = str "general" ∧
    (∃ e, TASK_TYPES.find?
        (fun x => decide (maxTypeScore (str "fix crash")
          ≤ calculateTypeScore (lower (str "fix crash")) x.2.patterns)) = some e ∧
      detectTaskType (str "fix crash") = ⟨e.1, maxTypeScore (str "fix crash"), e.2⟩) := by
  constructor
  · exact (taskType_classifier_spec (str "og: only")).2.2.2 (by decide)
  · exact (taskType_classifier_spec (str "fix crash")).2.2.1 (by decide)

/-! ## Intent Service (`src/services/intentService.js`) -/

def ACTION_KEYWORDS : List (Str × List Str) :=
  [ (str "create", [str "create", str "make", str "build", str "add", str "generate", str "new", str "implement"]),
    (str "update", [str "update", str "modify", str "change", str "edit", str "alter", str "revise"]),
    (str "delete", [str "delete", str "remove", str "drop", str "clear", str "destroy"]),
    (str "fix", [str "fix", str "repair", str "solve", str "debug", str "resolve", str "patch"]),
    (str "refactor", [str "refactor", str "improve", str "optimize", str "clean", str "restructure"]),
    (str "document", [str "document", str "describe", str "explain", str "annotate"]),
    (str "test", [str "test", str "verify", str "validate", str "check"]) ]

def COMPONENT_KEYWORDS : List (Str × List Str) :=
  [ (str "ui", [str "button", str "form", str "input", str "modal", str "dialog", str "card", str "list", str "table",
       str "menu", str "navbar", str "sidebar", str "header", str "footer", str "layout", str "page",
       str "component", str "widget", str "dropdown", str "select", str "checkbox", str "radio"]),
    (str "api", [str "api", str "endpoint", str "route", str "controller", str "request", str "response",
        str "rest", str "graphql", str "webhook", str "service"]),
    (str "data", [str "database", str "schema", str "model", str "migration", str "query", str "table",
         str "collection", str "index", str "relation"]),
    (str "auth", [str "auth", str "authentication", str "authorization", str "login", str "logout",
         str "signup", str "register", str "password", str "session", str "token", str "jwt", str "oauth"]),
    (str "workflow", [str "workflow", str "process", str "flow", str "pipeline", str "automation",
             str "integration", str "sync", str "job", str "task", str "cron"]) ]

/-- Stop words of the intent service (without the generic verbs of the
relevance service's list). -/
def intentStopWords : List Str :=
  [str "a", str "an", str "the", str "and", str "or", str "but", str "in", str "on", str "at", str "to", str "for",
   str "of", str "with", str "by", str "from", str "as", str "is", str "was", str "are", str "were", str "been",
   str "be", str "have", str "has", str "had", str "do", str "does", str "did", str "will", str "would",
   str "could", str "should", str "may", str "might", str "must", str "that", str "this", str "these",
   str "those", str "it", str "its", str "my", str "your", str "our", str "their", str "i", str "me", str "we", str "us"]

/-- JS `String.prototype.trim` (ASCII whitespace). -/
def wsTrim (l : Str) : Str :=
  ((l.dropWhile isWS).reverse.dropWhile isWS).reverse

/-- JS `normalized.split(whitespace-run)`.  The source applies it only to
trimmed strings, on which this agrees with the JS semantics (the empty
string yields one empty token). -/
def wsSplit (l : Str) : List Str :=
  if l = [] then [[]] else splitRuns isWS l

/-- `detectAction`: first action (in table order) one of whose keywords
equals some token; default `create`. -/
def detectAction (words : List Str) : Str :=
  match ACTION_KEYWORDS.find? (fun e => words.any (fun w => e.2.contains w)) with
  | some e => e.1
  | none => str "create"

/-- Whether a word is a stop word of the intent service. -/
def isIntentStop (w : Str) : Bool := intentStopWords.contains w

/-- `extractComponents`: returns (components, keywords, types). -/
def extractComponents (words : List Str) : List Str × List Str × List Str :=
  words.foldl
    (fun acc w =>
      let ct := COMPONENT_KEYWORDS.foldl
        (fun (p : List Str × List Str) e =>
          if w ∈ e.2 then (p.1 ++ [w], insertNew p.2 e.1) else p)
        (acc.1, acc.2.2)
      let kws := if ¬ isIntentStop w ∧ 2 < w.length then acc.2.1 ++ [w] else acc.2.1
      (ct.1, kws, ct.2))
    ([], [], [])

/-! ### The schema-reference regular expressions -/

/-- A `word` character of the regex class (alphanumeric or underscore). -/
def isWordChar (c : Char) : Bool := c.isAlphanum || c == '_'

/-- Case-insensitive literal prefix: on success, the remainder after it. -/
def ciPrefix (p l : Str) : Option Str :=
  if lower (l.take p.length) = p then some (l.drop p.length) else none

/-- Expect a literal dot; on success, the remainder. -/
def expectDot : Str → Option Str
  | [] => none
  | c :: r => if c = '.' then some r else none

/-- One anchored attempt of `word.word(.word)?` (greedy maximal word runs,
with the optional third segment), returning the capture and the remainder. -/
def dotAttempt (l : Str) : Option (Str × Str) :=
  if l.takeWhile isWordChar = [] then none
  else
    match expectDot (l.dropWhile isWordChar) with
    | none => none
    | some r2 =>
      if r2.takeWhile isWordChar = [] then none
      else
        match expectDot (r2.dropWhile isWordChar) with
        | none =>
          some (l.takeWhile isWordChar ++ '.' :: r2.takeWhile isWordChar,
            r2.dropWhile isWordChar)
        | some r4 =>
          if r4.takeWhile isWordChar = [] then
            some (l.takeWhile isWordChar ++ '.' :: r2.takeWhile isWordChar,
              r2.dropWhile isWordChar)
          else
            some (l.takeWhile isWordChar ++ '.' :: r2.takeWhile isWordChar
                ++ '.' :: r4.takeWhile isWordChar,
              r4.dropWhile isWordChar)

/-- One anchored attempt of the dotted-reference pattern with its optional
case-insensitive `schema.` prefix (tried first, as the regex engine does). -/
def dotMatchAt (l : Str) : Option (Str × Str) :=
  match ciPrefix (str "schema.") l with
  | some l2 =>
    match dotAttempt l2 with
    | some r => some r
    | none => dotAttempt l
  | none => dotAttempt l

theorem takeWhile_dropWhile_length (p : α → Bool) (l : List α) :
    (l.takeWhile p).length + (l.dropWhile p).length = l.length := by
  rw [← List.length_append, List.takeWhile_append_dropWhile]

theorem dropWhile_lt_of_takeWhile_ne (p : α → Bool) (l : List α)
    (h : l.takeWhile p ≠ []) : (l.dropWhile p).length < l.length := by
  have h1 := takeWhile_dropWhile_length p l
  have h2 : 0 < (l.takeWhile p).length := List.length_pos.mpr h
  omega

theorem ciPrefix_length (p l r : Str) (h : ciPrefix p l = some r) :
    r.length = l.length - p.length ∧ p.length ≤ l.length := by
  unfold ciPrefix at h
  by_cases hc : lower (l.take p.length) = p
  · rw [if_pos hc] at h
    have hr : r = l.drop p.length := (Option.some.injEq _ _).mp h.symm
    have hlen : (lower (l.take p.length)).length = p.length := by rw [hc]
    have htake : (l.take p.length).length = min p.length l.length := List.length_take _ _
    have hmap : (lower (l.take p.length)).length = (l.take p.length).length :=
      List.length_map _ _
    subst hr
    rw [List.length_drop]
    omega
  · rw [if_neg hc] at h
    exact absurd h (by simp)

theorem expectDot_length (l r : Str) (h : expectDot l = some r) :
    r.length + 1 = l.length := by
  cases l with
  | nil => simp [expectDot] at h
  | cons c t =>
    simp only [expectDot] at h
    by_cases hc : c = '.'
    · rw [if_pos hc] at h
      cases h
      rfl
    · rw [if_neg hc] at h
      exact absurd h (by simp)

theorem dotAttempt_rest_lt (l cap rest : Str) (h : dotAttempt l = some (cap, rest)) :
    rest.length < l.length := by
  unfold dotAttempt at h
  split at h
  · exact absurd h (by simp)
  · rename_i h1
    have hd1 : (l.dropWhile isWordChar).length < l.length :=
      dropWhile_lt_of_takeWhile_ne _ _ h1
    split at h
    · exact absurd h (by simp)
    · rename_i r2 hE1
      have hl2 := expectDot_length _ _ hE1
      split at h
      · exact absurd h (by simp)
      · rename_i h2
        have hd2 : (r2.dropWhile isWordChar).length < r2.length :=
          dropWhile_lt_of_takeWhile_ne _ _ h2
        split at h
        · cases h
          omega
        · rename_i r4 hE2
          have hl4 := expectDot_length _ _ hE2
          have hd3 : (r4.dropWhile isWordChar).length ≤ r4.length := length_dropWhile_le _ _
          split at h
          · cases h
            omega
          · cases h
            omega

theorem dotMatchAt_rest_lt (l cap rest : Str) (h : dotMatchAt l = some (cap, rest)) :
    rest.length < l.length := by
  unfold dotMatchAt at h
  split at h
  · rename_i l2 hp
    have hpl := ciPrefix_length _ _ _ hp
    have hsl : (str "schema.").length = 7 := rfl
    split at h
    · rename_i r ha
      cases h
      have := dotAttempt_rest_lt _ _ _ ha
      omega
    · exact dotAttempt_rest_lt _ _ _ h
  · exact dotAttempt_rest_lt _ _ _ h

/-- Generic fuel-based global-regex scan: at each position try the
anchored matcher; on a match, emit the capture and resume after it,
otherwise advance one character.  A successful match always consumes at
least one character (see the `_rest_lt` lemmas), so fuel equal to the
length of the string always suffices. -/
def scanWith (m : Str → Option (Str × Str)) : ℕ → Str → List Str
  | 0, _ => []
  | _ + 1, [] => []
  | fuel + 1, c :: cs =>
    match m (c :: cs) with
    | some (cap, rest) => cap :: scanWith m fuel rest
    | none => scanWith m fuel cs

def runScan (m : Str → Option (Str × Str)) (l : Str) : List Str := scanWith m l.length l

/-- The global scan of the dotted-reference regex. -/
def dotScan (l : Str) : List Str := runScan dotMatchAt l

/-- One anchored attempt of a `(word+)\s+keyword` pattern (the keyword
matched case-insensitively), returning the captured word and remainder. -/
def namedAttempt (kw : Str) (l : Str) : Option (Str × Str) :=
  if l.takeWhile isWordChar = [] then none
  else
    if (l.dropWhile isWordChar).takeWhile isWS = [] then none
    else
      match ciPrefix kw ((l.dropWhile isWordChar).dropWhile isWS) with
      | some rest => some (l.takeWhile isWordChar, rest)
      | none => none

theorem namedAttempt_rest_lt (kw l cap rest : Str)
    (h : namedAttempt kw l = some (cap, rest)) : rest.length < l.length := by
  unfold namedAttempt at h
  split at h
  · exact absurd h (by simp)
  · rename_i h1
    have hd1 : (l.dropWhile isWordChar).length < l.length :=
      dropWhile_lt_of_takeWhile_ne _ _ h1
    split at h
    · exact absurd h (by simp)
    · rename_i h2
      have hd2 : ((l.dropWhile isWordChar).dropWhile isWS).length
          < (l.dropWhile isWordChar).length :=
        dropWhile_lt_of_takeWhile_ne _ _ h2
      split at h
      · rename_i r hp
        have hpl := ciPrefix_length _ _ _ hp
        cases h
        omega
      · exact absurd h (by simp)

/-- The global scan of one named `(word+) keyword` regex. -/
def namedScan (kw : Str) (l : Str) : List Str := runScan (namedAttempt kw) l

/-- `extractSchemaReferences`: dotted references, then the four named
patterns mapped to `colors.<name>` (filtering determiners), deduplicated. -/
def extractSchemaReferences (intent : Str) : List Str :=
  let badNames : List Str := [str "the", str "a", str "my", str "our", str "with"]
  let addNamed (kw : Str) : List Str :=
    (namedScan kw intent).foldl
      (fun acc nm =>
        let s := lower nm
        if s ∈ badNames then acc else acc ++ [str "colors." ++ s]) []
  dedupList (dotScan intent ++ addNamed (str "palette") ++ addNamed (str "color")
    ++ addNamed (str "theme") ++ addNamed (str "style"))

/-- The context-keyword table of `extractContextHints`. -/
def contextKeywords : List (Str × List Str) :=
  [ (str "project", [str "project", str "overview", str "about"]),
    (str "architecture", [str "architecture", str "system", str "design", str "structure"]),
    (str "conventions", [str "convention", str "standard", str "style", str "pattern"]),
    (str "api", [str "api", str "endpoint", str "rest", str "graphql"]),
    (str "auth", [str "auth", str "authentication", str "security"]) ]

def extractContextHints (words : List Str) : List Str :=
  words.foldl
    (fun hints w =>
      contextKeywords.foldl (fun h e => if w ∈ e.2 then insertNew h e.1 else h) hints)
    []

structure Requirement where
  type : Str
  action : Str
  component : Option Str
  description : Str
deriving DecidableEq

/-- `buildRequirements`: a single generic record when no component was
recognized, otherwise one record per component. -/
def buildRequirements (action : Str) (components types : List Str) (raw : Str) :
    List Requirement :=
  if components = [] then [⟨str "general", action, none, raw⟩]
  else
    components.map (fun component =>
      let t :=
        match types.find? (fun ty =>
          match COMPONENT_KEYWORDS.find? (fun e => e.1 == ty) with
          | some e => e.2.contains component
          | none => false) with
        | some ty => ty
        | none => str "general"
      ⟨t, action, some component, action ++ ' ' :: component⟩)

/-- `determineSuggestedTemplates`: `base` plus the mapped template of each
detected type. -/
def determineSuggestedTemplates (types : List Str) : List Str :=
  let templateMapping : List (Str × Str) :=
    [ (str "ui", str "ui"), (str "api", str "api"), (str "data", str "api"),
      (str "auth", str "workflow"), (str "workflow", str "workflow") ]
  types.foldl
    (fun acc t =>
      match templateMapping.find? (fun e => e.1 == t) with
      | some e => insertNew acc e.2
      | none => acc)
    [str "base"]

/-- `calculateConfidence`: base 0.3, +0.2 for a non-default action, +0.3 for
components, +0.2 for types, capped at 1. -/
def calculateConfidence (action : Str) (components types : List Str) : ℚ :=
  let s1 := qOf 3 10
  let s2 := if action ≠ str "create" then qAdd s1 (qOf 1 5) else s1
  let s3 := if components ≠ [] then qAdd s2 (qOf 3 10) else s2
  let s4 := if types ≠ [] then qAdd s3 (qOf 1 5) else s3
  jsMin s4 1

structure IntentRefs where
  schemas : List Str
  context : List Str
deriving DecidableEq

structure Intent where
  raw : Str
  action : Str
  components : List Str
  keywords : List Str
  types : List Str
  references : IntentRefs
  requirements : List Requirement
  suggestedTemplates : List Str
  confidence : ℚ
deriving DecidableEq

/-- `parseIntent`. -/
def parseIntent (intentString : Str) : Intent :=
  let normalized := wsTrim (lower intentString)
  let words := wsSplit normalized
  let action := detectAction words
  let cext := extractComponents words
  { raw := intentString
    action := action
    components := cext.1
    keywords := cext.2.1
    types := cext.2.2
    references := ⟨extractSchemaReferences intentString, extractContextHints words⟩
    requirements := buildRequirements action cext.1 cext.2.2 intentString
    suggestedTemplates := determineSuggestedTemplates cext.2.2
    confidence := calculateConfidence action cext.1 cext.2.2 }

/-! ## C9: components/types coupling and the reachable confidence values -/

theorem insertNew_ne_nil (l : List Str) (x : Str) : insertNew l x ≠ [] := by
  unfold insertNew
  by_cases h : x ∈ l
  · rw [if_pos h]
    exact List.ne_nil_of_mem h
  · rw [if_neg h]
    simp

/-- The inner per-word loop of `extractComponents`. -/
def componentStep (w : Str) (p : List Str × List Str) (e : Str × List Str) :
    List Str × List Str :=
  if w ∈ e.2 then (p.1 ++ [w], insertNew p.2 e.1) else p

theorem componentStep_fold_iff (w : Str) (entries : List (Str × List Str))
    (cs ts : List Str) (h : cs = [] ↔ ts = []) :
    ((entries.foldl (componentStep w) (cs, ts)).1 = []
      ↔ (entries.foldl (componentStep w) (cs, ts)).2 = []) := by
  induction entries generalizing cs ts with
  | nil => exact h
  | cons e entries ih =>
    simp only [List.foldl_cons]
    unfold componentStep
    by_cases he : w ∈ e.2
    · rw [if_pos he]
      refine ih _ _ ?_
      constructor
      · intro hx
        exact absurd hx (by simp)
      · intro hx
        exact absurd hx (insertNew_ne_nil _ _)
    · rw [if_neg he]
      exact ih _ _ h

theorem componentStep_fold_skip (w : Str) (entries : List (Str × List Str))
    (cs ts : List Str) (h : ∀ e ∈ entries, w ∉ e.2) :
    entries.foldl (componentStep w) (cs, ts) = (cs, ts) := by
  induction entries generalizing cs ts with
  | nil => rfl
  | cons e entries ih =>
    simp only [List.foldl_cons]
    unfold componentStep
    rw [if_neg (h e (List.mem_cons_self _ _))]
    exact ih _ _ (fun e' he' => h e' (List.mem_cons_of_mem _ he'))

theorem extractComponents_eq_foldl (words : List Str) :
    extractComponents words
      = words.foldl
          (fun acc w =>
            ((COMPONENT_KEYWORDS.foldl (componentStep w) (acc.1, acc.2.2)).1,
              (if ¬ isIntentStop w ∧ 2 < w.length then acc.2.1 ++ [w] else acc.2.1),
              (COMPONENT_KEYWORDS.foldl (componentStep w) (acc.1, acc.2.2)).2))
          ([], [], []) := rfl

theorem extractComponents_inv (words : List Str) :
    ∀ (cs ks ts : List Str), (cs = [] ↔ ts = []) →
      ((words.foldl
          (fun acc w =>
            ((COMPONENT_KEYWORDS.foldl (componentStep w) (acc.1, acc.2.2)).1,
              (if ¬ isIntentStop w ∧ 2 < w.length then acc.2.1 ++ [w] else acc.2.1),
              (COMPONENT_KEYWORDS.foldl (componentStep w) (acc.1, acc.2.2)).2))
          (cs, ks, ts)).1 = []
        ↔ (words.foldl
          (fun acc w =>
            ((COMPONENT_KEYWORDS.foldl (componentStep w) (acc.1, acc.2.2)).1,
              (if ¬ isIntentStop w ∧ 2 < w.length then acc.2.1 ++ [w] else acc.2.1),
              (COMPONENT_KEYWORDS.foldl (componentStep w) (acc.1, acc.2.2)).2))
          (cs, ks, ts)).2.2 = []) := by
  induction words with
  | nil => intro cs ks ts h; exact h
  | cons w words ih =>
    intro cs ks ts h
    simp only [List.foldl_cons]
    exact ih _ _ _ (componentStep_fold_iff w COMPONENT_KEYWORDS cs ts h)

theorem extractComponents_iff (words : List Str) :
    ((extractComponents words).1 = [] ↔ (extractComponents words).2.2 = []) := by
  rw [extractComponents_eq_foldl]
  exact extractComponents_inv words [] [] [] (by simp)

/-- **C9.** For every input string, the parsed Intent has a non-empty
components list exactly when it has a non-empty types list, and therefore
its confidence is exactly one of 0.3, 0.5, 0.8 and 1.0. -/
theorem parseIntent_confidence_values (s : Str) :
    ((parseIntent s).components = [] ↔ (parseIntent s).types = []) ∧
    ((parseIntent s).confidence = qOf 3 10 ∨ (parseIntent s).confidence = qOf 1 2 ∨
      (parseIntent s).confidence = qOf 4 5 ∨ (parseIntent s).confidence = 1) := by
  have hiff : ((parseIntent s).components = [] ↔ (parseIntent s).types = []) :=
    extractComponents_iff (wsSplit (wsTrim (lower s)))
  refine ⟨hiff, ?_⟩
  have hconf : (parseIntent s).confidence
      = calculateConfidence (parseIntent s).action (parseIntent s).components
          (parseIntent s).types := rfl
  rw [hconf]
  unfold calculateConfidence
  by_cases ha : (parseIntent s).action = str "create" <;>
    by_cases hc : (parseIntent s).components = []
  · have ht : (parseIntent s).types = [] := hiff.mp hc
    simp only [ha, hc, ht, ne_eq, not_true_eq_false, if_false, if_true]
    left
    decide
  · have ht : (parseIntent s).types ≠ [] := fun h => hc (hiff.mpr h)
    simp only [ha, hc, ht, ne_eq, not_true_eq_false, not_false_eq_true, if_false, if_true]
    right; right; left
    decide
  · have ht : (parseIntent s).types = [] := hiff.mp hc
    simp only [ha, hc, ht, ne_eq, not_false_eq_true, not_true_eq_false, if_false, if_true]
    right; left
    decide
  · have ht : (parseIntent s).types ≠ [] := fun h => hc (hiff.mpr h)
    simp only [ha, hc, ht, ne_eq, not_false_eq_true, if_true]
    right; right; right
    decide

/-- Witness for C9 at a concrete input. -/
theorem parseIntent_confidence_values_witness :
    (((parseIntent (str "button")).components = [] ↔ (parseIntent (str "button")).types = []) ∧
      ((parseIntent (str "button")).confidence = qOf 3 10 ∨
        (parseIntent (str "button")).confidence = qOf 1 2 ∨
        (parseIntent (str "button")).confidence = qOf 4 5 ∨
        (parseIntent (str "button")).confidence = 1)) :=
  parseIntent_confidence_values (str "button")

/-! ## C8: the empty (or stop-word-only) intent -/

theorem detectAction_default (words : List Str)
    (h : ∀ e ∈ ACTION_KEYWORDS, ∀ w ∈ words, w ∉ e.2) :
    detectAction words = str "create" := by
  unfold detectAction
  have hnone : ACTION_KEYWORDS.find? (fun e => words.any (fun w => e.2.contains w)) = none := by
    rw [List.find?_eq_none]
    intro e he
    simp only [List.any_eq_true, Bool.not_eq_true]
    intro hx
    obtain ⟨w, hw, hmem⟩ := hx
    exact h e he w hw (by simpa using hmem)
  rw [hnone]

theorem extractComponents_skip_aux :
    ∀ (words : List Str), (∀ w ∈ words, ∀ e ∈ COMPONENT_KEYWORDS, w ∉ e.2) →
      ∀ (cs ks ts : List Str),
        ((words.foldl
            (fun acc w =>
              ((COMPONENT_KEYWORDS.foldl (componentStep w) (acc.1, acc.2.2)).1,
                (if ¬ isIntentStop w ∧ 2 < w.length then acc.2.1 ++ [w] else acc.2.1),
                (COMPONENT_KEYWORDS.foldl (componentStep w) (acc.1, acc.2.2)).2))
            (cs, ks, ts)).1 = cs ∧
          (words.foldl
            (fun acc w =>
              ((COMPONENT_KEYWORDS.foldl (componentStep w) (acc.1, acc.2.2)).1,
                (if ¬ isIntentStop w ∧ 2 < w.length then acc.2.1 ++ [w] else acc.2.1),
                (COMPONENT_KEYWORDS.foldl (componentStep w) (acc.1, acc.2.2)).2))
            (cs, ks, ts)).2.2 = ts) := by
  intro words
  induction words with
  | nil => intro _ cs ks ts; exact ⟨rfl, rfl⟩
  | cons w words ih =>
    intro h cs ks ts
    simp only [List.foldl_cons]
    have hfold : List.foldl (componentStep w)
        (((cs, ks, ts) : List Str × List Str × List Str).1, ((cs, ks, ts) : List Str × List Str × List Str).2.2)
        COMPONENT_KEYWORDS = (cs, ts) :=
      componentStep_fold_skip w COMPONENT_KEYWORDS cs ts (h w (List.mem_cons_self _ _))
    rw [hfold]
    exact ih (fun w' hw' => h w' (List.mem_cons_of_mem _ hw')) _ _ _

theorem extractComponents_skip (words : List Str)
    (h : ∀ w ∈ words, ∀ e ∈ COMPONENT_KEYWORDS, w ∉ e.2) :
    (extractComponents words).1 = [] ∧ (extractComponents words).2.2 = [] := by
  rw [extractComponents_eq_foldl]
  exact extractComponents_skip_aux words (fun w hw e he => h w hw e he) [] [] []

set_option maxRecDepth 400000 in
/-- **C8.** Parsing the empty intent string — and more generally any intent
whose tokens are stop words decorated by punctuation — yields action
`create`, empty components and types, exactly one generic requirement whose
description is the raw text, and confidence 0.3; the classifier applied to
the empty intent returns `general`. -/
theorem parseIntent_empty (raw : Str) :
    ((∀ w ∈ wsSplit (wsTrim (lower raw)),
        w.filter Char.isAlpha ∈ intentStopWords ∨ w.filter Char.isAlpha = []) →
      (parseIntent raw).action = str "create" ∧ (parseIntent raw).components = [] ∧
      (parseIntent raw).types = [] ∧
      (parseIntent raw).requirements = [⟨str "general", str "create", none, raw⟩] ∧
      (parseIntent raw).confidence = qOf 3 10) ∧
    ((parseIntent (str "")).action = str "create" ∧
      (parseIntent (str "")).components = [] ∧ (parseIntent (str "")).types = [] ∧
      (parseIntent (str "")).requirements = [⟨str "general", str "create", none, str ""⟩] ∧
      (parseIntent (str "")).confidence = qOf 3 10 ∧
      (detectTaskType (parseIntent (str "")).raw).type = str "general") := by
  constructor
  · intro h
    have hact : ∀ e ∈ ACTION_KEYWORDS, ∀ kw ∈ e.2,
        kw.filter Char.isAlpha = kw ∧ kw ∉ intentStopWords ∧ kw ≠ ([] : Str) := by decide
    have hcomp : ∀ e ∈ COMPONENT_KEYWORDS, ∀ kw ∈ e.2,
        kw.filter Char.isAlpha = kw ∧ kw ∉ intentStopWords ∧ kw ≠ ([] : Str) := by decide
    have hnA : ∀ e ∈ ACTION_KEYWORDS, ∀ w ∈ wsSplit (wsTrim (lower raw)), w ∉ e.2 := by
      intro e he w hw hmem
      obtain ⟨hfa, hns, hne⟩ := hact e he w hmem
      rcases h w hw with hstop | hnil
      · rw [hfa] at hstop
        exact hns hstop
      · rw [hfa] at hnil
        exact hne hnil
    have hnC : ∀ w ∈ wsSplit (wsTrim (lower raw)), ∀ e ∈ COMPONENT_KEYWORDS, w ∉ e.2 := by
      intro w hw e he hmem
      obtain ⟨hfa, hns, hne⟩ := hcomp e he w hmem
      rcases h w hw with hstop | hnil
      · rw [hfa] at hstop
        exact hns hstop
      · rw [hfa] at hnil
        exact hne hnil
    have ha : detectAction (wsSplit (wsTrim (lower raw))) = str "create" :=
      detectAction_default _ hnA
    have hce := extractComponents_skip (wsSplit (wsTrim (lower raw))) hnC
    refine ⟨ha, hce.1, hce.2, ?_, ?_⟩
    · show buildRequirements (detectAction (wsSplit (wsTrim (lower raw))))
        (extractComponents (wsSplit (wsTrim (lower raw)))).1
        (extractComponents (wsSplit (wsTrim (lower raw)))).2.2 raw = _
      rw [ha, hce.1]
      unfold buildRequirements
      rw [if_pos rfl]
    · show calculateConfidence (detectAction (wsSplit (wsTrim (lower raw))))
        (extractComponents (wsSplit (wsTrim (lower raw)))).1
        (extractComponents (wsSplit (wsTrim (lower raw)))).2.2 = _
      rw [ha, hce.1, hce.2]
      decide
  · refine ⟨by decide, by decide, by decide, by decide, by decide, by decide⟩

set_option maxRecDepth 100000 in
/-- Witness for C8: the stop-word clause applied at a punctuated stop-word
intent. -/
theorem parseIntent_empty_witness :
    (parseIntent (str "the, and of")).action = str "create" ∧
    (parseIntent (str "the, and of")).confidence = qOf 3 10 := by
  have h := (parseIntent_empty (str "the, and of")).1 (by decide)
  exact ⟨h.1, h.2.2.2.2⟩

/-! ## Schema Service (`src/services/schemaService.js`) -/

/-- JS `String.prototype.split` with a single-character separator (keeps
empty pieces; the empty string yields one empty piece). -/
def splitOnChar (c : Char) : Str → List Str
  | [] => [[]]
  | x :: t =>
    if x = c then [] :: splitOnChar c t
    else
      match splitOnChar c t with
      | p :: ps => (x :: p) :: ps
      | [] => [[x]]

/-- JSON-like values as loaded from schema documents. -/
inductive JVal where
  | str (s : Str)
  | num (q : ℚ)
  | bool (b : Bool)
  | null
  | arr (elems : List JVal)
  | obj (fields : List (Str × JVal))

/-- One loaded schema: its `variables` object (field `vars` here, since
`variables` is reserved) and the full parsed `data`. -/
structure Schema where
  vars : JVal
  data : JVal

abbrev Schemas := List (Str × Schema)

def lookupSchema (schemas : Schemas) (name : Str) : Option Schema :=
  (schemas.find? (fun e => e.1 == name)).map Prod.snd

/-- JS `typeof v === 'object'` for JSON values (arrays are objects; `null`
is guarded before this test is reached). -/
def jTypeofObject : JVal → Bool
  | .obj _ => true
  | .arr _ => true
  | .null => true
  | _ => false

def digitsVal (s : Str) : ℕ := s.foldl (fun n c => n * 10 + (c.toNat - '0'.toNat)) 0

/-- A canonical array-index string (the JSON-data part of the JS `in`
semantics on arrays; phantom properties such as `length` are outside the
JSON data model). -/
def canonIndex (s : Str) : Option ℕ :=
  if s = [] then none
  else if ¬ s.all Char.isDigit then none
  else if s.length > 1 ∧ s.head? = some '0' then none
  else some (digitsVal s)

/-- JS `key in current` on JSON data. -/
def jIn (key : Str) : JVal → Bool
  | .obj fs => fs.any (fun f => f.1 == key)
  | .arr xs =>
    match canonIndex key with
    | some i => i < xs.length
    | none => false
  | _ => false

/-- JS `current[key]` on JSON data (`undefined` when absent; property
access on primitives is outside the JSON data model). -/
def jGet (key : Str) : JVal → Option JVal
  | .obj fs => (fs.find? (fun f => f.1 == key)).map Prod.snd
  | .arr xs =>
    match canonIndex key with
    | some i => xs.get? i
    | none => none
  | _ => none

/-- The fallback walk of `resolveVariable` over `schema.data`: each step
guards against `undefined`/`null` and then accesses the key directly. -/
def dataWalk : List Str → Option JVal → Option JVal
  | [], cur => cur
  | k :: ks, cur =>
    match cur with
    | none => none
    | some .null => none
    | some v => dataWalk ks (jGet k v)

/-- The main walk of `resolveVariable` over `schema.variables`: on a
missing key it restarts over `schema.data` with the full key list. -/
def varWalk (sch : Schema) (allKeys : List Str) : List Str → JVal → Option JVal
  | [], cur => some cur
  | k :: ks, cur =>
    match cur with
    | .null => none
    | _ =>
      if jTypeofObject cur ∧ jIn k cur then
        match jGet k cur with
        | some v => varWalk sch allKeys ks v
        | none => none
      else dataWalk allKeys (some sch.data)

/-- The final unwrap: an object with a `value` key yields that value. -/
def unwrapValue : Option JVal → Option JVal
  | some (.obj fs) =>
    if fs.any (fun f => f.1 == str "value") then (fs.find? (fun f => f.1 == str "value")).map Prod.snd
    else some (.obj fs)
  | r => r

/-- `resolveVariable(schemas, variablePath)`. -/
def resolveVariable (schemas : Schemas) (variablePath : Str) : Option JVal :=
  let parts := splitOnChar '.' variablePath
  if parts.length < 2 then none
  else
    match parts with
    | [] => none
    | p0 :: rest =>
      match lookupSchema schemas p0 with
      | none => none
      | some sch => unwrapValue (varWalk sch rest rest sch.vars)

def natToStr (n : ℕ) : Str := Nat.toDigits 10 n

def intToStr (i : ℤ) : Str := if i < 0 then '-' :: natToStr i.natAbs else natToStr i.toNat

/-- Decimal rendering of a number.  JS prints floats in decimal; the
integral values exercised by the pipeline agree, and non-integral rationals
are rendered as a fraction. -/
def ratToStr (q : ℚ) : Str :=
  if q.den = 1 then intToStr q.num else intToStr q.num ++ '/' :: natToStr q.den

mutual

/-- JS `String(value)` on JSON data. -/
def jToString : JVal → Str
  | .str s => s
  | .num q => ratToStr q
  | .bool b => if b then str "true" else str "false"
  | .null => str "null"
  | .obj _ => str "[object Object]"
  | .arr xs => jToStringArr xs

/-- `Array.prototype.toString`: elements joined by commas, `null` elements
rendered empty. -/
def jToStringArr : List JVal → Str
  | [] => []
  | [v] => jToStringElem v
  | v :: vs => jToStringElem v ++ ',' :: jToStringArr vs

def jToStringElem : JVal → Str
  | .null => []
  | v => jToString v

end

/-- The placeholder opener, the nine characters of `\x7b\x7bschema.`. -/
def phSig : Str := str "\x7b\x7bschema."

/-- The placeholder closer `\x7d\x7d`. -/
def phClose : Str := str "\x7d\x7d"

/-- One anchored attempt of the placeholder pattern: the opener, a
non-empty run of non-`\x7d` characters, then the two-character closer. -/
def phMatchAt (l : Str) : Option (Str × Str) :=
  if phSig.isPrefixOf l then
    if (l.drop 9).takeWhile (fun c => !(c == '\x7d')) = [] then none
    else
      match (l.drop 9).dropWhile (fun c => !(c == '\x7d')) with
      | '\x7d' :: '\x7d' :: r => some ((l.drop 9).takeWhile (fun c => !(c == '\x7d')), r)
      | _ => none
  else none

theorem phMatchAt_rest_lt (l path rest : Str) (h : phMatchAt l = some (path, rest)) :
    rest.length < l.length := by
  unfold phMatchAt at h
  split at h
  · rename_i hpre
    split at h
    · exact absurd h (by simp)
    · rename_i hne
      split at h
      · rename_i r heq
        cases h
        have h9 : 9 ≤ l.length := by
          have := List.IsPrefix.length_le (List.isPrefixOf_iff_prefix.mp hpre)
          simpa [phSig, str] using this
        have hsum := takeWhile_dropWhile_length (fun c => !(c == '\x7d')) (l.drop 9)
        have hlen : (l.drop 9).length = l.length - 9 := List.length_drop _ _
        have hpos : 0 < ((l.drop 9).takeWhile (fun c => !(c == '\x7d'))).length :=
          List.length_pos.mpr hne
        have hr : (('\x7d' :: '\x7d' :: rest : Str)).length
            = ((l.drop 9).dropWhile (fun c => !(c == '\x7d'))).length := by rw [heq]
        simp only [List.length_cons] at hr
        omega
      · exact absurd h (by simp)
  · exact absurd h (by simp)

/-- The fuel-based replacement scan of `resolveAllVariables`: at each
position try the placeholder pattern; a resolved placeholder is replaced by
the stringified value, an unresolved one is kept verbatim and its path
recorded; otherwise advance one character.  A successful match consumes at
least eleven characters, so fuel equal to the length always suffices. -/
def ravScanF (schemas : Schemas) : ℕ → Str → Str × List Str
  | 0, _ => ([], [])
  | _ + 1, [] => ([], [])
  | fuel + 1, c :: cs =>
    match phMatchAt (c :: cs) with
    | some (path, rest) =>
      let pr := ravScanF schemas fuel rest
      match resolveVariable schemas path with
      | some v => (jToString v ++ pr.1, pr.2)
      | none => (phSig ++ path ++ phClose ++ pr.1, path :: pr.2)
    | none =>
      let pr := ravScanF schemas fuel cs
      (c :: pr.1, pr.2)

/-- `resolveAllVariables(template, schemas)`, returning the rewritten text
and the unresolved paths in scan order. -/
def resolveAllVariables (template : Str) (schemas : Schemas) : Str × List Str :=
  ravScanF schemas template.length template

/-! ### Scan lemmas -/

theorem ravScanF_congr (schemas : Schemas) (fuel : ℕ) :
    ∀ (fuel' : ℕ) (l : Str), l.length ≤ fuel → l.length ≤ fuel' →
      ravScanF schemas fuel l = ravScanF schemas fuel' l := by
  induction fuel using Nat.strong_induction_on with
  | _ fuel ih =>
    intro fuel' l hf hf'
    cases l with
    | nil => cases fuel <;> cases fuel' <;> rfl
    | cons c cs =>
      cases fuel with
      | zero => simp at hf
      | succ f =>
        cases fuel' with
        | zero => simp at hf'
        | succ f' =>
          simp only [List.length_cons] at hf hf'
          rcases hm : phMatchAt (c :: cs) with _ | ⟨path, rest⟩
          · simp only [ravScanF, hm]
            rw [ih f (Nat.lt_succ_self f) f' cs (by omega) (by omega)]
          · have hrest := phMatchAt_rest_lt _ _ _ hm
            simp only [List.length_cons] at hrest
            simp only [ravScanF, hm]
            rw [ih f (Nat.lt_succ_self f) f' rest (by omega) (by omega)]

theorem resolveAllVariables_cons_skip (schemas : Schemas) (c : Char) (cs : Str)
    (h : phMatchAt (c :: cs) = none) :
    resolveAllVariables (c :: cs) schemas
      = (c :: (resolveAllVariables cs schemas).1, (resolveAllVariables cs schemas).2) := by
  unfold resolveAllVariables
  simp only [List.length_cons, ravScanF, h]

theorem resolveAllVariables_match (schemas : Schemas) (l path rest : Str)
    (h : phMatchAt l = some (path, rest)) :
    resolveAllVariables l schemas
      = match resolveVariable schemas path with
        | some v => (jToString v ++ (resolveAllVariables rest schemas).1,
            (resolveAllVariables rest schemas).2)
        | none => (phSig ++ path ++ phClose ++ (resolveAllVariables rest schemas).1,
            path :: (resolveAllVariables rest schemas).2) := by
  cases l with
  | nil => exact absurd h (by simp [phMatchAt, phSig, str])
  | cons c cs =>
    have hrest := phMatchAt_rest_lt _ _ _ h
    simp only [List.length_cons] at hrest
    unfold resolveAllVariables
    simp only [List.length_cons, ravScanF, h]
    rw [ravScanF_congr schemas cs.length rest.length rest (by omega) (le_refl _)]

theorem resolveAllVariables_append (schemas : Schemas) (pre rest : Str)
    (h : ∀ i, i < pre.length → phMatchAt ((pre ++ rest).drop i) = none) :
    resolveAllVariables (pre ++ rest) schemas
      = (pre ++ (resolveAllVariables rest schemas).1, (resolveAllVariables rest schemas).2) := by
  induction pre with
  | nil => simp
  | cons c pre' ih =>
    have h0 : phMatchAt (c :: (pre' ++ rest)) = none := by
      have := h 0 (by simp)
      simpa using this
    rw [List.cons_append, resolveAllVariables_cons_skip schemas _ _ h0]
    rw [ih (fun i hi => by
      have := h (i + 1) (by simp only [List.length_cons]; omega)
      simpa [List.drop_succ_cons] using this)]
    simp

/-! ### Prefix geometry: a signature-led pattern cannot start inside a
clean prefix -/

theorem prefix_of_append_of_length_le (sig dpre X : Str) (hge : sig.length ≤ dpre.length)
    (h : sig <+: dpre ++ X) : sig <+: dpre := by
  have heq := List.prefix_iff_eq_take.mp h
  rw [List.take_append_of_le_length hge] at heq
  rw [heq]
  exact List.take_prefix _ _

theorem prefix_straddle_false (sig dpre X : Str) (hne : dpre ≠ [])
    (hlt : dpre.length < sig.length)
    (hborder : ∀ k, k < sig.length → 1 ≤ k → sig.drop k ≠ sig.take (sig.length - k))
    (h : sig <+: dpre ++ (sig ++ X)) : False := by
  have heq := List.prefix_iff_eq_take.mp h
  rw [List.take_append_eq_append_take] at heq
  rw [List.take_of_length_le (le_of_lt hlt)] at heq
  rw [List.take_append_of_le_length (by omega)] at heq
  have hdrop := congrArg (List.drop dpre.length) heq
  rw [List.drop_left] at hdrop
  exact hborder dpre.length hlt (by
    have : 0 < dpre.length := List.length_pos.mpr hne
    omega) hdrop

theorem no_sig_prefix_inside (sig pre Y : Str)
    (hborder : ∀ k, k < sig.length → 1 ≤ k → sig.drop k ≠ sig.take (sig.length - k))
    (hinf : ¬ sig <:+: pre) :
    ∀ i, i < pre.length → ¬ (sig <+: (pre ++ (sig ++ Y)).drop i) := by
  intro i hi hpref
  rw [List.drop_append_of_le_length (le_of_lt hi)] at hpref
  by_cases hk : sig.length ≤ (pre.drop i).length
  · have hp2 := prefix_of_append_of_length_le _ _ _ hk hpref
    exact hinf (hp2.isInfix.trans (List.drop_suffix i pre).isInfix)
  · push_neg at hk
    have hne : pre.drop i ≠ [] := by
      have : (pre.drop i).length = pre.length - i := List.length_drop _ _
      intro h0
      rw [h0] at this
      simp at this
      omega
    exact prefix_straddle_false sig (pre.drop i) Y hne hk hborder hpref

theorem takeWhile_append_all (p : Char → Bool) (a b : Str) (h : ∀ x ∈ a, p x) :
    (a ++ b).takeWhile p = a ++ b.takeWhile p := by
  induction a with
  | nil => simp
  | cons x a ih =>
    simp [List.takeWhile_cons, h x (List.mem_cons_self x a),
      ih (fun y hy => h y (List.mem_cons_of_mem _ hy))]

theorem dropWhile_append_all (p : Char → Bool) (a b : Str) (h : ∀ x ∈ a, p x) :
    (a ++ b).dropWhile p = b.dropWhile p := by
  induction a with
  | nil => simp
  | cons x a ih =>
    simp [List.dropWhile_cons, h x (List.mem_cons_self x a),
      ih (fun y hy => h y (List.mem_cons_of_mem _ hy))]

theorem phSig_border_free :
    ∀ k, k < phSig.length → 1 ≤ k → phSig.drop k ≠ phSig.take (phSig.length - k) := by
  decide

theorem phMatchAt_boundary (path post : Str) (hne : path ≠ []) (hnb : '\x7d' ∉ path) :
    phMatchAt (phSig ++ (path ++ (phClose ++ post))) = some (path, post) := by
  unfold phMatchAt
  rw [if_pos (List.isPrefixOf_iff_prefix.mpr (List.prefix_append _ _))]
  have h9 : (phSig ++ (path ++ (phClose ++ post))).drop 9 = path ++ (phClose ++ post) := by
    rw [show (9 : ℕ) = phSig.length from rfl, List.drop_left]
  rw [h9]
  have hall : ∀ x ∈ path, (!(x == '\x7d')) = true := by
    intro x hx
    have hxe : x ≠ '\x7d' := fun hxe => hnb (by rw [← hxe]; exact hx)
    simp [hxe]
  have htake : (path ++ (phClose ++ post)).takeWhile (fun c => !(c == '\x7d')) = path := by
    rw [takeWhile_append_all _ _ _ hall]
    simp [phClose, str, List.takeWhile_cons]
  have hdrop : (path ++ (phClose ++ post)).dropWhile (fun c => !(c == '\x7d'))
      = phClose ++ post := by
    rw [dropWhile_append_all _ _ _ hall]
    simp [phClose, str, List.dropWhile_cons]
  rw [htake, hdrop, if_neg (by simpa using hne)]
  rfl

/-- The placeholder-rewriting behaviour of `resolveAllVariables`: a
placeholder whose opener does not also occur in the preceding text is
replaced by the stringified resolved value when its path resolves, and is
kept verbatim (and its path recorded) when it does not. -/
theorem ravScan_placeholder (schemas : Schemas) (pre path post : Str)
    (hinf : ¬ phSig <:+: pre) (hne : path ≠ []) (hnb : '\x7d' ∉ path) :
    resolveAllVariables (pre ++ phSig ++ path ++ phClose ++ post) schemas
      = match resolveVariable schemas path with
        | some v => (pre ++ jToString v ++ (resolveAllVariables post schemas).1,
            (resolveAllVariables post schemas).2)
        | none => (pre ++ phSig ++ path ++ phClose ++ (resolveAllVariables post schemas).1,
            path :: (resolveAllVariables post schemas).2) := by
  have hassoc : pre ++ phSig ++ path ++ phClose ++ post
      = pre ++ (phSig ++ (path ++ (phClose ++ post))) := by
    simp [List.append_assoc]
  rw [hassoc]
  rw [resolveAllVariables_append schemas pre _ (by
    intro i hi
    unfold phMatchAt
    rw [if_neg]
    intro hp
    exact no_sig_prefix_inside phSig pre (path ++ (phClose ++ post)) phSig_border_free hinf
      i hi (List.isPrefixOf_iff_prefix.mp hp))]
  rw [resolveAllVariables_match schemas _ _ _ (phMatchAt_boundary path post hne hnb)]
  rcases hres : resolveVariable schemas path with _ | v <;> simp [hres, List.append_assoc]

/-- **C5.** `resolveAllVariables` replaces each placeholder whose path
resolves with the stringified resolved value, and leaves every placeholder
whose path fails to resolve verbatim in the result while recording the path
in the unresolved list; in particular `Use \x7b\x7bschema.missing.path\x7d\x7d`
is returned unchanged with `missing.path` recorded whenever no schema named
`missing` exists.  (The model is a total function: resolution failure never
raises an error.) -/
theorem resolveAllVariables_spec :
    (∀ (schemas : Schemas) (pre path post : Str) (v : JVal),
      ¬ phSig <:+: pre → path ≠ [] → '\x7d' ∉ path →
      resolveVariable schemas path = some v →
      resolveAllVariables (pre ++ phSig ++ path ++ phClose ++ post) schemas
        = (pre ++ jToString v ++ (resolveAllVariables post schemas).1,
            (resolveAllVariables post schemas).2)) ∧
    (∀ (schemas : Schemas) (pre path post : Str),
      ¬ phSig <:+: pre → path ≠ [] → '\x7d' ∉ path →
      resolveVariable schemas path = none →
      resolveAllVariables (pre ++ phSig ++ path ++ phClose ++ post) schemas
        = (pre ++ phSig ++ path ++ phClose ++ (resolveAllVariables post schemas).1,
            path :: (resolveAllVariables post schemas).2)) ∧
    (∀ schemas : Schemas, lookupSchema schemas (str "missing") = none →
      resolveAllVariables (str "Use \x7b\x7bschema.missing.path\x7d\x7d") schemas
        = (str "Use \x7b\x7bschema.missing.path\x7d\x7d", [str "missing.path"])) := by
  refine ⟨?_, ?_, ?_⟩
  · intro schemas pre path post v hinf hne hnb hres
    rw [ravScan_placeholder schemas pre path post hinf hne hnb]
    simp only [hres]
  · intro schemas pre path post hinf hne hnb hres
    rw [ravScan_placeholder schemas pre path post hinf hne hnb]
    simp only [hres]
  · intro schemas hmiss
    have hres : resolveVariable schemas (str "missing.path") = none := by
      unfold resolveVariable
      have hsplit : splitOnChar '.' (str "missing.path") = [str "missing", str "path"] := by
        decide
      rw [hsplit, if_neg (by simp)]
      show (match lookupSchema schemas (str "missing") with
        | none => (none : Option JVal)
        | some sch => unwrapValue (varWalk sch [str "path"] [str "path"] sch.vars)) = none
      rw [hmiss]
    have hdecomp : str "Use \x7b\x7bschema.missing.path\x7d\x7d"
        = str "Use " ++ phSig ++ str "missing.path" ++ phClose ++ ([] : Str) := by decide
    rw [hdecomp]
    rw [ravScan_placeholder schemas (str "Use ") (str "missing.path") [] (by decide) (by decide)
      (by decide)]
    simp only [hres]
    have hnil : resolveAllVariables ([] : Str) schemas = ([], []) := rfl
    rw [hnil]

/-- Witness for C5: the unresolved scenario at concrete schemas that do not
define `missing`. -/
theorem resolveAllVariables_spec_witness :
    resolveAllVariables (str "Use \x7b\x7bschema.missing.path\x7d\x7d")
        [(str "colors", ⟨JVal.obj [(str "primary", JVal.str (str "#3B82F6"))], JVal.obj []⟩)]
      = (str "Use \x7b\x7bschema.missing.path\x7d\x7d", [str "missing.path"]) :=
  (resolveAllVariables_spec).2.2 _ rfl

theorem splitOnChar_no_delim (c : Char) (l : Str) (h : c ∉ l) : splitOnChar c l = [l] := by
  induction l with
  | nil => rfl
  | cons x t ih =>
    unfold splitOnChar
    rw [if_neg (fun hx => h (by rw [← hx]; exact List.mem_cons_self x t))]
    rw [ih (fun hc => h (List.mem_cons_of_mem _ hc))]

/-- **C10.** A variable path with a single segment (no dot) never resolves,
even when a schema of that name exists; hence a placeholder with a
one-segment path is always kept verbatim and reported as unresolved. -/
theorem resolveVariable_single_segment :
    (∀ (schemas : Schemas) (seg : Str), '.' ∉ seg → resolveVariable schemas seg = none) ∧
    (∀ (schemas : Schemas) (pre seg post : Str),
      ¬ phSig <:+: pre → seg ≠ [] → '\x7d' ∉ seg → '.' ∉ seg →
      resolveAllVariables (pre ++ phSig ++ seg ++ phClose ++ post) schemas
        = (pre ++ phSig ++ seg ++ phClose ++ (resolveAllVariables post schemas).1,
            seg :: (resolveAllVariables post schemas).2)) := by
  have h1 : ∀ (schemas : Schemas) (seg : Str), '.' ∉ seg →
      resolveVariable schemas seg = none := by
    intro schemas seg hd
    unfold resolveVariable
    rw [splitOnChar_no_delim _ _ hd]
    rw [if_pos (by simp)]
  refine ⟨h1, ?_⟩
  intro schemas pre seg post hinf hne hnb hd
  rw [ravScan_placeholder schemas pre seg post hinf hne hnb]
  simp only [h1 schemas seg hd]

/-- Witness for C10: a one-segment path fails to resolve although a schema
of exactly that name exists. -/
theorem resolveVariable_single_segment_witness :
    resolveVariable [(str "x", ⟨JVal.obj [(str "y", JVal.str (str "z"))], JVal.obj []⟩)]
        (str "x") = none :=
  (resolveVariable_single_segment).1 _ (str "x") (by decide)

/-! ## Stable insertion sort (model of the ECMAScript stable `sort`) -/

def insertLe {α : Type} (le : α → α → Bool) (x : α) : List α → List α
  | [] => [x]
  | y :: ys => if le x y then x :: y :: ys else y :: insertLe le x ys

def insSort {α : Type} (le : α → α → Bool) : List α → List α
  | [] => []
  | x :: xs => insertLe le x (insSort le xs)

theorem insertLe_perm {α : Type} (le : α → α → Bool) (x : α) (l : List α) :
    (insertLe le x l).Perm (x :: l) := by
  induction l with
  | nil => exact List.Perm.refl _
  | cons y ys ih =>
    unfold insertLe
    by_cases h : le x y
    · rw [if_pos h]
    · rw [if_neg h]
      exact (List.Perm.cons y ih).trans (List.Perm.swap x y ys)

theorem insSort_perm {α : Type} (le : α → α → Bool) (l : List α) :
    (insSort le l).Perm l := by
  induction l with
  | nil => exact List.Perm.refl _
  | cons x xs ih =>
    exact (insertLe_perm le x _).trans (List.Perm.cons x ih)

/-! ## Prompt Builder (`src/utils/promptBuilder.js`) -/

/-- `Array.prototype.join(sep)`. -/
def joinSep (sep : Str) : List Str → Str
  | [] => []
  | [x] => x
  | x :: xs => x ++ sep ++ joinSep sep xs

/-- The lines of a text, as the multiline anchor `^` sees them. -/
def splitLines (l : Str) : List Str := splitOnChar '\n' l

def joinWithBlank : List (List Str) → List Str
  | [] => []
  | [x] => x
  | x :: xs => x ++ [[]] ++ joinWithBlank xs

def leadHashes : Str → ℕ
  | '#' :: t => leadHashes t + 1
  | _ => 0

/-- Whether the heading regex (line-initial run of hashes followed by a
space) matches the line. -/
def isHeadingLine (l : Str) : Bool :=
  decide (0 < leadHashes l) && ((l.drop (leadHashes l)).head? == some ' ')

/-- The per-line effect of the heading re-leveling replacement. -/
def relevelLine (l : Str) : Str := if isHeadingLine l then '#' :: l else l

/-- The whole-content heading re-leveling of `buildContextSections`. -/
def relevelContent (content : Str) : Str :=
  joinSep (str "\n") ((splitLines content).map relevelLine)

/-- One context file as `buildContextSections` consumes it: a body and the
optional frontmatter priority. -/
structure PBFile where
  content : Str
  priority : Option Str
deriving DecidableEq

/-- The numeric rank of a priority (`high` 0, `medium` 1, `low` 2, anything
else or missing defaults to 1). -/
def prioRank (p : Option Str) : ℕ :=
  match p with
  | some s => if s = str "high" then 0 else if s = str "medium" then 1
      else if s = str "low" then 2 else 1
  | none => 1

def sortByPrio (files : List PBFile) : List PBFile :=
  insSort (fun a b => decide (prioRank a.priority ≤ prioRank b.priority)) files

/-- `buildContextSections`: sort by priority (stable), re-level every
heading of every body by one step, and join the bodies with blank lines. -/
def buildContextSections (files : List PBFile) : Option Str :=
  if files = [] then none
  else some (joinSep (str "\n\n") ((sortByPrio files).map (fun f => relevelContent f.content)))

/-! ### Line decomposition lemmas -/

theorem splitOnChar_ne_nil (c : Char) (l : Str) : splitOnChar c l ≠ [] := by
  cases l with
  | nil => simp [splitOnChar]
  | cons x t =>
    unfold splitOnChar
    by_cases h : x = c
    · rw [if_pos h]; simp
    · rw [if_neg h]
      rcases hs : splitOnChar c t with _ | ⟨p, ps⟩ <;> simp

theorem splitOnChar_cons (d x : Char) (t : Str) :
    splitOnChar d (x :: t) =
      if x = d then [] :: splitOnChar d t
      else match splitOnChar d t with
        | p :: ps => (x :: p) :: ps
        | [] => [[x]] := rfl

theorem splitOnChar_append (d : Char) (a b : Str) :
    splitOnChar d (a ++ d :: b) = splitOnChar d a ++ splitOnChar d b := by
  induction a with
  | nil =>
    show splitOnChar d (d :: b) = splitOnChar d [] ++ splitOnChar d b
    rw [splitOnChar_cons, if_pos rfl]
    rfl
  | cons x a ih =>
    show splitOnChar d (x :: (a ++ d :: b)) = splitOnChar d (x :: a) ++ splitOnChar d b
    rw [splitOnChar_cons, splitOnChar_cons, ih]
    by_cases h : x = d
    · rw [if_pos h, if_pos h]
      rfl
    · rw [if_neg h, if_neg h]
      rcases hs : splitOnChar d a with _ | ⟨p, ps⟩
      · exact absurd hs (splitOnChar_ne_nil d a)
      · simp

theorem mem_splitOnChar_not_delim (d : Char) (l p : Str) (hp : p ∈ splitOnChar d l) :
    d ∉ p := by
  induction l generalizing p with
  | nil =>
    simp [splitOnChar] at hp
    simp [hp]
  | cons x t ih =>
    rw [splitOnChar_cons] at hp
    by_cases h : x = d
    · rw [if_pos h] at hp
      rcases List.mem_cons.mp hp with rfl | hp2
      · simp
      · exact ih p hp2
    · rw [if_neg h] at hp
      rcases hs : splitOnChar d t with _ | ⟨q, qs⟩
      · exact absurd hs (splitOnChar_ne_nil d t)
      · rw [hs] at hp
        rcases List.mem_cons.mp hp with rfl | hp2
        · intro hd
          rcases List.mem_cons.mp hd with rfl | hd2
          · exact h rfl
          · exact ih q (by rw [hs]; exact List.mem_cons_self _ _) hd2
        · exact ih p (by rw [hs]; exact List.mem_cons_of_mem _ hp2)

theorem split_joinSep_single (d : Char) (qs : List Str) (hne : qs ≠ [])
    (h : ∀ q ∈ qs, d ∉ q) : splitOnChar d (joinSep [d] qs) = qs := by
  induction qs with
  | nil => exact absurd rfl hne
  | cons x xs ih =>
    cases xs with
    | nil =>
      show splitOnChar d x = [x]
      exact splitOnChar_no_delim d x (h x (List.mem_cons_self _ _))
    | cons y ys =>
      have hshape : joinSep [d] (x :: y :: ys) = x ++ d :: joinSep [d] (y :: ys) := by
        have h0 : joinSep [d] (x :: y :: ys) = x ++ [d] ++ joinSep [d] (y :: ys) := rfl
        rw [h0]
        simp
      rw [hshape, splitOnChar_append, splitOnChar_no_delim d x (h x (List.mem_cons_self _ _)),
        ih (by simp) (fun q hq => h q (List.mem_cons_of_mem _ hq))]
      rfl

theorem splitLines_joinSep2 (parts : List Str) (hne : parts ≠ []) :
    splitLines (joinSep (str "\n\n") parts) = joinWithBlank (parts.map splitLines) := by
  induction parts with
  | nil => exact absurd rfl hne
  | cons x xs ih =>
    cases xs with
    | nil => rfl
    | cons y ys =>
      have hshape : joinSep (str "\n\n") (x :: y :: ys)
          = x ++ '\n' :: ('\n' :: joinSep (str "\n\n") (y :: ys)) := by
        have h0 : joinSep (str "\n\n") (x :: y :: ys)
            = x ++ str "\n\n" ++ joinSep (str "\n\n") (y :: ys) := rfl
        rw [h0]
        simp [str]
      have hstep : splitLines (joinSep (str "\n\n") (x :: y :: ys))
          = splitLines x ++ [] :: splitLines (joinSep (str "\n\n") (y :: ys)) := by
        show splitOnChar '\n' _ = splitOnChar '\n' x ++ [] :: splitOnChar '\n' _
        rw [hshape, splitOnChar_append, splitOnChar_cons, if_pos rfl]
      rw [hstep, ih (by simp)]
      have hmap : (x :: y :: ys).map splitLines
          = splitLines x :: (y :: ys).map splitLines := rfl
      rw [hmap]
      rcases hm : (y :: ys).map splitLines with _ | ⟨p, ps⟩
      · simp at hm
      · simp [joinWithBlank]

theorem mem_joinWithBlank (parts : List (List Str)) (part : List Str) (x : Str)
    (hp : part ∈ parts) (hx : x ∈ part) : x ∈ joinWithBlank parts := by
  induction parts with
  | nil => simp at hp
  | cons q qs ih =>
    rcases List.mem_cons.mp hp with rfl | hp2
    · cases qs with
      | nil => exact hx
      | cons r rs => simp [joinWithBlank, hx]
    · cases qs with
      | nil => simp at hp2
      | cons r rs =>
        have := ih hp2
        simp only [joinWithBlank]
        simp only [List.mem_append]
        right
        exact this

theorem leadHashes_replicate (n : ℕ) (rest : Str) :
    leadHashes (List.replicate n '#' ++ ' ' :: rest) = n := by
  induction n with
  | zero => rfl
  | succ n ih => simpa [List.replicate_succ, leadHashes] using ih

theorem relevelLine_no_newline (l : Str) (h : '\n' ∉ l) : '\n' ∉ relevelLine l := by
  unfold relevelLine
  by_cases hh : isHeadingLine l
  · rw [if_pos hh]
    intro hm
    rcases List.mem_cons.mp hm with heq | hm2
    · exact absurd heq.symm (by decide)
    · exact h hm2
  · rw [if_neg hh]
    exact h

theorem splitLines_relevelContent (content : Str) :
    splitLines (relevelContent content) = (splitLines content).map relevelLine := by
  unfold relevelContent
  show splitOnChar '\n' (joinSep ['\n'] ((splitLines content).map relevelLine)) = _
  refine split_joinSep_single '\n' _ (by
    intro h0
    exact splitOnChar_ne_nil '\n' content
      (by simpa [splitLines] using List.map_eq_nil_iff.mp h0)) ?_
  intro q hq
  obtain ⟨p, hp, rfl⟩ := List.mem_map.mp hq
  exact relevelLine_no_newline p (mem_splitOnChar_not_delim '\n' content p hp)

/-- **C6.** In the assembled context section every markdown heading line of
every included document body appears with exactly one extra hash prepended;
every non-heading line appears unchanged; and the whole output is exactly
the re-leveled lines of the (priority-sorted permutation of the) document
bodies joined by blank lines, for every document and regardless of
insertion order. -/
theorem buildContextSections_relevel (files : List PBFile) (f : PBFile) (line : Str) :
    (∀ (n : ℕ) (rest : Str), 0 < n → line = List.replicate n '#' ++ ' ' :: rest →
      relevelLine line = List.replicate (n + 1) '#' ++ ' ' :: rest) ∧
    (isHeadingLine line = false → relevelLine line = line) ∧
    (f ∈ files → line ∈ splitLines f.content →
      ∃ out, buildContextSections files = some out ∧ relevelLine line ∈ splitLines out) ∧
    (files ≠ [] →
      ∃ out, ∃ sorted : List PBFile, buildContextSections files = some out ∧
        sorted.Perm files ∧
        splitLines out
          = joinWithBlank (sorted.map (fun g => (splitLines g.content).map relevelLine))) := by
  have hmain : files ≠ [] →
      ∃ out, ∃ sorted : List PBFile, buildContextSections files = some out ∧
        sorted.Perm files ∧
        splitLines out
          = joinWithBlank (sorted.map (fun g => (splitLines g.content).map relevelLine)) := by
    intro hne
    have hsne : sortByPrio files ≠ [] := by
      intro hs0
      have hp : (sortByPrio files).Perm files := insSort_perm _ files
      rw [hs0] at hp
      exact hne hp.symm.eq_nil
    refine ⟨joinSep (str "\n\n") ((sortByPrio files).map (fun f => relevelContent f.content)),
      sortByPrio files, ?_, insSort_perm _ _, ?_⟩
    · unfold buildContextSections
      rw [if_neg hne]
    · rw [splitLines_joinSep2 _ (by simpa using hsne)]
      congr 1
      rw [List.map_map]
      exact List.map_congr_left (fun g _ => splitLines_relevelContent g.content)
  refine ⟨?_, ?_, ?_, hmain⟩
  · intro n rest hn hline
    have hlead : leadHashes line = n := by rw [hline]; exact leadHashes_replicate n rest
    have hhead : isHeadingLine line = true := by
      unfold isHeadingLine
      rw [hlead, hline]
      have hdrop : (List.replicate n '#' ++ ' ' :: rest).drop n = ' ' :: rest := by
        rw [List.drop_append_of_le_length (by simp)]
        simp
      rw [hdrop]
      simp [hn]
    have hrl : relevelLine line = '#' :: line := by
      unfold relevelLine
      rw [hhead]
      rfl
    rw [hrl, hline, List.replicate_succ]
    rfl
  · intro hnot
    unfold relevelLine
    rw [hnot]
    rfl
  · intro hf hline
    obtain ⟨out, sorted, hout, hperm, hsplit⟩ := hmain (by
      intro h0
      rw [h0] at hf
      simp at hf)
    refine ⟨out, hout, ?_⟩
    rw [hsplit]
    exact mem_joinWithBlank _ ((splitLines f.content).map relevelLine) _
      (List.mem_map_of_mem _ (hperm.mem_iff.mpr hf)) (List.mem_map_of_mem _ hline)

theorem buildContextSections_relevel_witness :
    relevelLine (str "## A") = str "### A" ∧
    (∃ out, buildContextSections [⟨str "## A\nbody", some (str "low")⟩] = some out ∧
      relevelLine (str "## A") ∈ splitLines out) := by
  have h := buildContextSections_relevel [⟨str "## A\nbody", some (str "low")⟩]
    ⟨str "## A\nbody", some (str "low")⟩ (str "## A")
  refine ⟨?_, h.2.2.1 (by decide) (by decide)⟩
  have h1 := h.1 2 (str "A") (by decide) (by decide)
  rw [h1]
  decide

/-! ### Target optimization (`optimizeForTarget`, part_014)

`TARGET_CONFIGS` is modeled by the one field `optimizeForTarget` consults:
`supportsSystemPrompt` (absent in the source object means `undefined`,
which is falsy, hence `false` here). An unknown target falls back to the
`generic` config, whose `supportsSystemPrompt` is also absent. -/

structure TargetConfig where
  supportsSystemPrompt : Bool
deriving DecidableEq

def TARGET_CONFIGS : List (Str × TargetConfig) :=
  [(str "claude", ⟨true⟩), (str "cursor", ⟨false⟩), (str "gpt", ⟨true⟩),
   (str "antigravity", ⟨false⟩), (str "generic", ⟨false⟩)]

def lookupTargetConfig (target : Str) : TargetConfig :=
  match TARGET_CONFIGS.find? (fun p => p.1 = target) with
  | some p => p.2
  | none => ⟨false⟩

/-- The pattern of the cursor branch replacement, the three characters of
the literal regex. -/
def hhSig : Str := str "## "

/-- The global scan of the replacement in the cursor branch: at each
position, if the pattern starts there, emit the replacement and continue
after the match, else keep the character and move one ahead. -/
def replaceHHF : ℕ → Str → Str
  | _, [] => []
  | 0, c :: cs => c :: cs
  | fuel + 1, c :: cs =>
    if hhSig.isPrefixOf (c :: cs) then str "### " ++ replaceHHF fuel (cs.drop 2)
    else c :: replaceHHF fuel cs

def replaceHH (content : Str) : Str := replaceHHF content.length content

def optimizeForTarget (content target : Str) : Str :=
  if target = str "claude" ∧ (lookupTargetConfig target).supportsSystemPrompt = true then
    content
  else if target = str "cursor" then replaceHH content
  else content

theorem replaceHHF_succ (fuel : ℕ) (c : Char) (cs : Str) :
    replaceHHF (fuel + 1) (c :: cs) =
      if hhSig.isPrefixOf (c :: cs) then str "### " ++ replaceHHF fuel (cs.drop 2)
      else c :: replaceHHF fuel cs := rfl

theorem replaceHHF_congr (fuel : ℕ) :
    ∀ (fuel' : ℕ) (l : Str), l.length ≤ fuel → l.length ≤ fuel' →
      replaceHHF fuel l = replaceHHF fuel' l := by
  induction fuel using Nat.strong_induction_on with
  | _ fuel ih =>
    intro fuel' l hf hf'
    cases l with
    | nil => cases fuel <;> cases fuel' <;> rfl
    | cons c cs =>
      cases fuel with
      | zero => simp at hf
      | succ f =>
        cases fuel' with
        | zero => simp at hf'
        | succ f' =>
          simp only [List.length_cons] at hf hf'
          rw [replaceHHF_succ, replaceHHF_succ]
          by_cases hp : hhSig.isPrefixOf (c :: cs)
          · rw [if_pos hp, if_pos hp]
            rw [ih f (Nat.lt_succ_self f) f' (cs.drop 2)
              (by have := List.length_drop 2 cs; omega)
              (by have := List.length_drop 2 cs; omega)]
          · rw [if_neg hp, if_neg hp]
            rw [ih f (Nat.lt_succ_self f) f' cs (by omega) (by omega)]

theorem replaceHH_cons_skip (c : Char) (cs : Str) (h : ¬ hhSig.isPrefixOf (c :: cs)) :
    replaceHH (c :: cs) = c :: replaceHH cs := by
  unfold replaceHH
  rw [show (c :: cs).length = cs.length + 1 from rfl, replaceHHF_succ, if_neg h]

theorem replaceHH_sig (b : Str) :
    replaceHH (hhSig ++ b) = str "### " ++ replaceHH b := by
  have hsig : hhSig = ['#', '#', ' '] := by decide
  have hpref : hhSig.isPrefixOf ('#' :: '#' :: ' ' :: b) := by
    rw [hsig]
    exact List.isPrefixOf_iff_prefix.mpr (List.prefix_append _ _)
  unfold replaceHH
  rw [hsig]
  show replaceHHF (('#' :: '#' :: ' ' :: b).length) ('#' :: '#' :: ' ' :: b) = _
  rw [show ('#' :: '#' :: ' ' :: b).length = ('#' :: ' ' :: b).length + 1 from rfl,
    replaceHHF_succ, if_pos hpref]
  show str "### " ++ replaceHHF (b.length + 2) b = _
  rw [replaceHHF_congr (b.length + 2) b.length b (by omega) (le_refl _)]

theorem replaceHH_id (l : Str) (h : containsSub l hhSig = false) :
    replaceHH l = l := by
  induction l with
  | nil => rfl
  | cons c t ih =>
    have hsplit : hhSig.isPrefixOf (c :: t) = false ∧ containsSub t hhSig = false := by
      have h2 : (hhSig.isPrefixOf (c :: t) || containsSub t hhSig) = false := h
      simpa using h2
    rw [replaceHH_cons_skip c t (by simp [hsplit.1]), ih hsplit.2]

theorem replaceHH_append_skip (a rest : Str)
    (h : ∀ i, i < a.length → ¬ hhSig.isPrefixOf ((a ++ rest).drop i)) :
    replaceHH (a ++ rest) = a ++ replaceHH rest := by
  induction a with
  | nil => simp
  | cons c a' ih =>
    have h0 : ¬ hhSig.isPrefixOf (c :: (a' ++ rest)) := by
      have := h 0 (by simp)
      simpa using this
    rw [List.cons_append, replaceHH_cons_skip _ _ h0,
      ih (fun i hi => by
        have := h (i + 1) (by simp only [List.length_cons]; omega)
        simpa [List.drop_succ_cons] using this)]
    rfl

theorem hhSig_border_free :
    ∀ k, k < hhSig.length → 1 ≤ k → hhSig.drop k ≠ hhSig.take (hhSig.length - k) := by
  decide

theorem replaceHH_append (a b : Str) (hinf : ¬ hhSig <:+: a) :
    replaceHH (a ++ (hhSig ++ b)) = a ++ (str "### " ++ replaceHH b) := by
  rw [replaceHH_append_skip a (hhSig ++ b) (fun i hi hp =>
    no_sig_prefix_inside hhSig a b hhSig_border_free hinf i hi
      (List.isPrefixOf_iff_prefix.mp hp)), replaceHH_sig]

/-- **C7 counterexample.** The cursor transform is a plain global substring
replacement of the three characters of the pattern, so it also rewrites a
level-3 heading (which contains the pattern one position in) into a level-4
heading: the claim that exactly the level-2 headings change and nothing
else is altered is false. -/
theorem optimizeForTarget_counterexample :
    optimizeForTarget (str "### A") (str "cursor") = str "#### A" ∧
    str "#### A" ≠ str "### A" := by
  decide

/-- **C7 (amended).** For every target other than cursor the content passes
through unchanged (claude returns it because its config supports a system
prompt; every other non-cursor target falls through to the final return).
For cursor the result is the global replacement of every occurrence of the
three-character pattern by four characters: content without an occurrence
is unchanged, and an occurrence after occurrence-free text is rewritten in
place with the scan continuing after it. -/
theorem optimizeForTarget_spec (content target a b : Str) :
    (target ≠ str "cursor" → optimizeForTarget content target = content) ∧
    (optimizeForTarget content (str "cursor") = replaceHH content) ∧
    (containsSub content hhSig = false →
      optimizeForTarget content (str "cursor") = content) ∧
    (¬ hhSig <:+: a →
      replaceHH (a ++ (hhSig ++ b)) = a ++ (str "### " ++ replaceHH b)) := by
  have hcur : optimizeForTarget content (str "cursor") = replaceHH content := by
    unfold optimizeForTarget
    rw [if_neg (by decide), if_pos rfl]
  refine ⟨?_, hcur, ?_, replaceHH_append a b⟩
  · intro hne
    unfold optimizeForTarget
    by_cases hc : target = str "claude" ∧ (lookupTargetConfig target).supportsSystemPrompt = true
    · rw [if_pos hc]
    · rw [if_neg hc, if_neg hne]
  · intro hno
    rw [hcur, replaceHH_id content hno]

theorem optimizeForTarget_spec_witness :
    optimizeForTarget (str "## A") (str "claude") = str "## A" ∧
    replaceHH (str "x " ++ (hhSig ++ str "B")) = str "x " ++ (str "### " ++ replaceHH (str "B")) := by
  exact ⟨(optimizeForTarget_spec (str "## A") (str "claude") [] []).1 (by decide),
    (optimizeForTarget_spec (str "## A") (str "claude") (str "x ") (str "B")).2.2.2 (by decide)⟩

/-! ### Context inference (`inferContext` / `handleSpecialContext`,
intentService.js)

Available context files are an association list name → body (the source
object's `file.content`; a missing or empty body are both falsy there and
both map to the empty string here). `detectTaskType` and
`extractTaskKeywords` both reduce an intent object to its `raw` string, so
the phases below take the intent's fields directly. -/

def ContextMap : Type := List (Str × Str)

def ctxLookup (m : ContextMap) (name : Str) : Option Str :=
  (List.find? (fun p => p.1 == name) m).map Prod.snd

/-- `file.content || ''` for a name of the map. -/
def ctxContent (m : ContextMap) (name : Str) : Str :=
  match ctxLookup m name with
  | some c => c
  | none => []

/-- `Object.keys(contextFiles)`, in insertion order. -/
def ctxAvailable (m : ContextMap) : List Str :=
  List.map Prod.fst m

/-- `handleSpecialContext(contextName, { contextFiles, keywords, taskType,
mode, minRelevance })`. -/
def handleSpecialContext (contextName : Str) (contextFiles : ContextMap)
    (keywords : List Str) (taskType mode : Str) (minRelevance : ℚ) : Bool × ℚ :=
  if mode = str "always" then (true, qOf 1 2)
  else if mode = str "never" then (false, 0)
  else if taskType = str "bugfix" then (true, qOf 7 10)
  else if shouldIncludeContext taskType contextName = false then (false, 0)
  else
    match ctxLookup contextFiles contextName with
    | none => (false, 0)
    | some content =>
      if content = [] then (false, 0)
      else
        (decide ((if contextName = str "history" then qMul minRelevance (qOf 7 10)
            else minRelevance) ≤ scoreRelevance content keywords),
          scoreRelevance content keywords)

/-- One step of the `available.includes(name) && !recommended.includes(name)
→ push name with the phase's score` pattern, on the recommended list paired
with its scores map. -/
def addIfAvailNew (available : List Str) (score : ℚ) (rec : List (Str × ℚ))
    (n : Str) : List (Str × ℚ) :=
  if n ∈ available ∧ n ∉ rec.map Prod.fst then rec ++ [(n, score)] else rec

def addNames (available : List Str) (score : ℚ) (names : List Str)
    (rec : List (Str × ℚ)) : List (Str × ℚ) :=
  names.foldl (addIfAvailNew available score) rec

/-- The `latest_commit` / `history` block of `inferContext`. -/
def phaseSpecial (contextFiles : ContextMap) (keywords : List Str) (taskType : Str)
    (name mode : Str) (minRelevance : ℚ) (rec : List (Str × ℚ)) : List (Str × ℚ) :=
  if name ∈ ctxAvailable contextFiles ∧ name ∉ rec.map Prod.fst then
    if (handleSpecialContext name contextFiles keywords taskType mode minRelevance).1 then
      rec ++ [(name, (handleSpecialContext name contextFiles keywords taskType mode minRelevance).2)]
    else rec
  else rec

/-- One iteration of the final score-and-filter loop. -/
def relevanceStep (contextFiles : ContextMap) (keywords : List Str) (taskType : Str)
    (minRelevance : ℚ) (rec : List (Str × ℚ)) (name : Str) : List (Str × ℚ) :=
  if name ∈ rec.map Prod.fst then rec
  else if shouldIncludeContext taskType name = false then rec
  else if minRelevance ≤ scoreRelevance (ctxContent contextFiles name) keywords then
    rec ++ [(name, scoreRelevance (ctxContent contextFiles name) keywords)]
  else rec

def phaseRelevance (contextFiles : ContextMap) (keywords : List Str) (taskType : Str)
    (minRelevance : ℚ) (filterByRelevance : Bool) (rec : List (Str × ℚ)) :
    List (Str × ℚ) :=
  if filterByRelevance then
    (ctxAvailable contextFiles).foldl
      (relevanceStep contextFiles keywords taskType minRelevance) rec
  else rec

def inferTaskType (intent : Intent) : Str := (detectTaskType intent.raw).type

def inferKeywords (intent : Intent) : List Str := extractTaskKeywords intent.raw

/-- The `recommended` list of `inferContext` paired with the `scores` map,
right before the final sort: essentials, `project_structure`, hints, types,
the two special documents, then the relevance filter. -/
def recommendedWithScores (intent : Intent) (contextFiles : ContextMap)
    (filterByRelevance : Bool) (minRelevance : ℚ)
    (includeLatestCommit includeHistory : Str) (essentialContext : List Str) :
    List (Str × ℚ) :=
  phaseRelevance contextFiles (inferKeywords intent) (inferTaskType intent) minRelevance
    filterByRelevance
    (phaseSpecial contextFiles (inferKeywords intent) (inferTaskType intent)
      (str "history") includeHistory minRelevance
      (phaseSpecial contextFiles (inferKeywords intent) (inferTaskType intent)
        (str "latest_commit") includeLatestCommit minRelevance
        (addNames (ctxAvailable contextFiles) (qOf 7 10) intent.types
          (addNames (ctxAvailable contextFiles) (qOf 4 5) intent.references.context
            (addNames (ctxAvailable contextFiles) (qOf 9 10) [str "project_structure"]
              (addNames (ctxAvailable contextFiles) (qNat 1) essentialContext []))))))

def essRank (essC : List Str) (n : Str) : ℕ := if n ∈ essC then 0 else 1

/-- The final comparator: `a` may stay before `b` exactly when the
comparator of the source returns ≤ 0 on `(a, b)`: essential before
non-essential, otherwise by descending score. -/
def ctxLe (essC : List Str) (a b : Str × ℚ) : Bool :=
  decide (essRank essC a.1 < essRank essC b.1 ∨
    (essRank essC a.1 = essRank essC b.1 ∧ b.2 ≤ a.2))

/-- `inferContext(parsedIntent, contextFiles, options)`: the recommended
names after the stable sort. -/
def inferContext (intent : Intent) (contextFiles : ContextMap)
    (filterByRelevance : Bool) (minRelevance : ℚ)
    (includeLatestCommit includeHistory : Str) (essentialContext : List Str) :
    List Str :=
  (insSort (ctxLe essentialContext)
    (recommendedWithScores intent contextFiles filterByRelevance minRelevance
      includeLatestCommit includeHistory essentialContext)).map Prod.fst

/-! ### Generic facts about the stable insertion sort -/

theorem insertLe_front {α : Type} (le : α → α → Bool) (x : α) (l : List α)
    (h : ∀ z ∈ l, le x z = true) : insertLe le x l = x :: l := by
  cases l with
  | nil => rfl
  | cons y ys =>
    unfold insertLe
    rw [if_pos (h y (List.mem_cons_self _ _))]

theorem insSort_append_front {α : Type} (le : α → α → Bool) (E R : List α)
    (h : ∀ e ∈ E, ∀ z ∈ E ++ R, le e z = true) :
    insSort le (E ++ R) = E ++ insSort le R := by
  induction E with
  | nil => rfl
  | cons e E' ih =>
    show insertLe le e (insSort le (E' ++ R)) = e :: (E' ++ insSort le R)
    rw [ih (fun e2 he2 z hz =>
      h e2 (List.mem_cons_of_mem _ he2) z (by
        rcases List.mem_append.mp hz with h1 | h2
        · exact List.mem_append.mpr (Or.inl (List.mem_cons_of_mem _ h1))
        · exact List.mem_append.mpr (Or.inr h2)))]
    refine insertLe_front le e _ (fun z hz => ?_)
    refine h e (List.mem_cons_self _ _) z ?_
    rcases List.mem_append.mp hz with h1 | h2
    · exact List.mem_append.mpr (Or.inl (List.mem_cons_of_mem _ h1))
    · exact List.mem_append.mpr (Or.inr ((insSort_perm le R).mem_iff.mp h2))

theorem insertLe_pairwise {α : Type} (le : α → α → Bool)
    (htot : ∀ a b, le a b = true ∨ le b a = true)
    (htrans : ∀ a b c, le a b = true → le b c = true → le a c = true)
    (x : α) (l : List α) (hl : l.Pairwise (fun a b => le a b = true)) :
    (insertLe le x l).Pairwise (fun a b => le a b = true) := by
  induction l with
  | nil => simp [insertLe]
  | cons y ys ih =>
    rcases List.pairwise_cons.mp hl with ⟨hy, hys⟩
    unfold insertLe
    by_cases hxy : le x y = true
    · rw [if_pos hxy]
      refine List.pairwise_cons.mpr ⟨fun z hz => ?_, hl⟩
      rcases List.mem_cons.mp hz with rfl | hz2
      · exact hxy
      · exact htrans x y z hxy (hy z hz2)
    · rw [if_neg hxy]
      refine List.pairwise_cons.mpr ⟨fun z hz => ?_, ih hys⟩
      rcases (insertLe_perm le x ys).mem_iff.mp hz with hz2
      rcases List.mem_cons.mp hz2 with rfl | hz3
      · rcases htot z y with h1 | h2
        · exact absurd h1 hxy
        · exact h2
      · exact hy z hz3

theorem insSort_pairwise {α : Type} (le : α → α → Bool)
    (htot : ∀ a b, le a b = true ∨ le b a = true)
    (htrans : ∀ a b c, le a b = true → le b c = true → le a c = true)
    (l : List α) : (insSort le l).Pairwise (fun a b => le a b = true) := by
  induction l with
  | nil => simp [insSort]
  | cons x xs ih => exact insertLe_pairwise le htot htrans x (insSort le xs) ih

theorem insertLe_filter {α : Type} (le : α → α → Bool) (P : α → Bool) (x : α)
    (l : List α) (h : P x = true → ∀ y ∈ l, P y = true → le x y = true) :
    (insertLe le x l).filter P = ((x :: l).filter P : List α) := by
  induction l with
  | nil => rfl
  | cons y ys ih =>
    unfold insertLe
    by_cases hxy : le x y = true
    · rw [if_pos hxy]
    · rw [if_neg hxy]
      have ih2 := ih (fun hpx z hz hpz => h hpx z (List.mem_cons_of_mem _ hz) hpz)
      by_cases hpx : P x = true
      · have hpy : P y = false := by
          cases hy2 : P y
          · rfl
          · exact absurd (h hpx y (List.mem_cons_self _ _) hy2) hxy
        simp only [List.filter_cons, hpy, hpx, if_true, if_false, Bool.false_eq_true,
          ite_false, ite_true]
        rw [ih2]
        simp [List.filter_cons, hpx]
      · have hpx2 : P x = false := by
          cases hy2 : P x
          · rfl
          · exact absurd hy2 hpx
        simp only [List.filter_cons, hpx2, Bool.false_eq_true, ite_false]
        rw [ih2]
        simp [List.filter_cons, hpx2]

theorem insSort_filter_stable {α : Type} (le : α → α → Bool) (P : α → Bool)
    (l : List α) (h : ∀ x ∈ l, ∀ y ∈ l, P x = true → P y = true → le x y = true) :
    (insSort le l).filter P = l.filter P := by
  induction l with
  | nil => rfl
  | cons x xs ih =>
    show (insertLe le x (insSort le xs)).filter P = _
    rw [insertLe_filter le P x (insSort le xs) (fun hpx y hy hpy =>
      h x (List.mem_cons_self _ _) y
        (List.mem_cons_of_mem _ ((insSort_perm le xs).mem_iff.mp hy)) hpx hpy)]
    have ih2 := ih (fun a ha b hb => h a (List.mem_cons_of_mem _ ha) b (List.mem_cons_of_mem _ hb))
    simp only [List.filter_cons, ih2]

/-! ### Each phase of `inferContext` only appends fresh available names -/

theorem addNames_delta (available : List Str) (score : ℚ) (names : List Str) :
    ∀ rec, ∃ Δ, addNames available score names rec = rec ++ Δ ∧
      ∀ p ∈ Δ, p.1 ∈ available ∧ p.1 ∉ rec.map Prod.fst := by
  induction names with
  | nil =>
    intro rec
    exact ⟨[], by simp [addNames], by simp⟩
  | cons n ns ih =>
    intro rec
    by_cases hc : n ∈ available ∧ n ∉ rec.map Prod.fst
    · have hstep : addIfAvailNew available score rec n = rec ++ [(n, score)] := by
        unfold addIfAvailNew
        rw [if_pos hc]
      obtain ⟨Δ, hΔ, hprop⟩ := ih (rec ++ [(n, score)])
      refine ⟨(n, score) :: Δ, ?_, ?_⟩
      · show addNames available score ns (addIfAvailNew available score rec n) = _
        rw [hstep, hΔ]
        simp
      · intro p hp
        rcases List.mem_cons.mp hp with rfl | hp2
        · exact hc
        · have hprev := hprop p hp2
          exact ⟨hprev.1, fun hmem => hprev.2 (by simp [hmem])⟩
    · have hstep : addIfAvailNew available score rec n = rec := by
        unfold addIfAvailNew
        rw [if_neg hc]
      obtain ⟨Δ, hΔ, hprop⟩ := ih rec
      refine ⟨Δ, ?_, hprop⟩
      show addNames available score ns (addIfAvailNew available score rec n) = _
      rw [hstep]
      exact hΔ

theorem addNames_char (available : List Str) (score : ℚ) (names : List Str) :
    ∀ rec, names.Nodup → (∀ n ∈ names, n ∉ rec.map Prod.fst) →
      addNames available score names rec
        = rec ++ (names.filter (fun n => decide (n ∈ available))).map
            (fun n => (n, score)) := by
  induction names with
  | nil =>
    intro rec _ _
    simp [addNames]
  | cons n ns ih =>
    intro rec hnd hfresh
    rcases List.nodup_cons.mp hnd with ⟨hn, hnd2⟩
    show addNames available score ns (addIfAvailNew available score rec n) = _
    by_cases hna : n ∈ available
    · have hstep : addIfAvailNew available score rec n = rec ++ [(n, score)] := by
        unfold addIfAvailNew
        rw [if_pos ⟨hna, hfresh n (List.mem_cons_self _ _)⟩]
      rw [hstep, ih (rec ++ [(n, score)]) hnd2 (fun m hm => by
        intro hmem
        rw [List.map_append] at hmem
        rcases List.mem_append.mp hmem with h1 | h2
        · exact hfresh m (List.mem_cons_of_mem _ hm) h1
        · simp at h2
          exact hn (h2 ▸ hm))]
      simp [List.filter_cons, hna]
    · have hstep : addIfAvailNew available score rec n = rec := by
        unfold addIfAvailNew
        rw [if_neg (fun h => hna h.1)]
      rw [hstep, ih rec hnd2 (fun m hm => hfresh m (List.mem_cons_of_mem _ hm))]
      simp [List.filter_cons, hna]

theorem phaseSpecial_delta (cf : ContextMap) (kws : List Str) (tt name mode : Str)
    (minr : ℚ) (rec : List (Str × ℚ)) :
    ∃ Δ, phaseSpecial cf kws tt name mode minr rec = rec ++ Δ ∧
      ∀ p ∈ Δ, p.1 ∈ ctxAvailable cf ∧ p.1 ∉ rec.map Prod.fst := by
  unfold phaseSpecial
  by_cases h1 : name ∈ ctxAvailable cf ∧ name ∉ rec.map Prod.fst
  · rw [if_pos h1]
    by_cases h2 : (handleSpecialContext name cf kws tt mode minr).1 = true
    · rw [if_pos h2]
      refine ⟨[(name, (handleSpecialContext name cf kws tt mode minr).2)], rfl, ?_⟩
      intro p hp
      rw [List.mem_singleton.mp hp]
      exact h1
    · rw [if_neg h2]
      exact ⟨[], by simp, by simp⟩
  · rw [if_neg h1]
    exact ⟨[], by simp, by simp⟩

theorem relevanceFold_delta (cf : ContextMap) (kws : List Str) (tt : Str) (minr : ℚ)
    (names : List Str) : ∀ rec,
    ∃ Δ, names.foldl (relevanceStep cf kws tt minr) rec = rec ++ Δ ∧
      ∀ p ∈ Δ, p.1 ∈ names ∧ p.1 ∉ rec.map Prod.fst := by
  induction names with
  | nil =>
    intro rec
    exact ⟨[], by simp, by simp⟩
  | cons n ns ih =>
    intro rec
    have hstep : relevanceStep cf kws tt minr rec n = rec ∨
        (relevanceStep cf kws tt minr rec n
            = rec ++ [(n, scoreRelevance (ctxContent cf n) kws)]
          ∧ n ∉ rec.map Prod.fst) := by
      unfold relevanceStep
      by_cases h1 : n ∈ rec.map Prod.fst
      · rw [if_pos h1]
        exact Or.inl rfl
      · rw [if_neg h1]
        by_cases h2 : shouldIncludeContext tt n = false
        · rw [if_pos h2]
          exact Or.inl rfl
        · rw [if_neg h2]
          by_cases h3 : minr ≤ scoreRelevance (ctxContent cf n) kws
          · rw [if_pos h3]
            exact Or.inr ⟨rfl, h1⟩
          · rw [if_neg h3]
            exact Or.inl rfl
    rcases hstep with hs | ⟨hs, hn⟩
    · obtain ⟨Δ, hΔ, hp⟩ := ih rec
      refine ⟨Δ, ?_, fun p hp2 => ⟨List.mem_cons_of_mem _ (hp p hp2).1, (hp p hp2).2⟩⟩
      show ns.foldl _ (relevanceStep cf kws tt minr rec n) = _
      rw [hs]
      exact hΔ
    · obtain ⟨Δ, hΔ, hp⟩ := ih (rec ++ [(n, scoreRelevance (ctxContent cf n) kws)])
      refine ⟨(n, scoreRelevance (ctxContent cf n) kws) :: Δ, ?_, ?_⟩
      · show ns.foldl _ (relevanceStep cf kws tt minr rec n) = _
        rw [hs, hΔ]
        simp
      · intro p hp2
        rcases List.mem_cons.mp hp2 with rfl | hp3
        · exact ⟨List.mem_cons_self _ _, hn⟩
        · have hprev := hp p hp3
          exact ⟨List.mem_cons_of_mem _ hprev.1, fun hmem => hprev.2 (by simp [hmem])⟩

theorem phaseRelevance_delta (cf : ContextMap) (kws : List Str) (tt : Str)
    (minr : ℚ) (fbr : Bool) (rec : List (Str × ℚ)) :
    ∃ Δ, phaseRelevance cf kws tt minr fbr rec = rec ++ Δ ∧
      ∀ p ∈ Δ, p.1 ∈ ctxAvailable cf ∧ p.1 ∉ rec.map Prod.fst := by
  unfold phaseRelevance
  by_cases h : fbr = true
  · rw [if_pos h]
    exact relevanceFold_delta cf kws tt minr (ctxAvailable cf) rec
  · rw [if_neg h]
    exact ⟨[], by simp, by simp⟩

/-- The essential phase's output: the essential names present among the
available documents, in essential-list order, each at the maximal score. -/
def essEntries (cf : ContextMap) (essC : List Str) : List (Str × ℚ) :=
  (essC.filter (fun n => decide (n ∈ ctxAvailable cf))).map (fun n => (n, qNat 1))

theorem essEntries_fst (cf : ContextMap) (essC : List Str) :
    (essEntries cf essC).map Prod.fst
      = essC.filter (fun n => decide (n ∈ ctxAvailable cf)) := by
  unfold essEntries
  rw [List.map_map]
  exact (List.map_congr_left (fun n _ => rfl)).trans (List.map_id _)

theorem mem_essEntries (cf : ContextMap) (essC : List Str) (e : Str × ℚ)
    (he : e ∈ essEntries cf essC) : e.1 ∈ essC ∧ e.2 = qNat 1 := by
  obtain ⟨n, hn, rfl⟩ := List.mem_map.mp he
  exact ⟨(List.mem_filter.mp hn).1, rfl⟩

theorem ctxLe_total (essC : List Str) : ∀ a b, ctxLe essC a b = true ∨ ctxLe essC b a = true := by
  intro a b
  unfold ctxLe
  simp only [decide_eq_true_eq]
  rcases Nat.lt_trichotomy (essRank essC a.1) (essRank essC b.1) with h | h | h
  · exact Or.inl (Or.inl h)
  · rcases le_total b.2 a.2 with hs | hs
    · exact Or.inl (Or.inr ⟨h, hs⟩)
    · exact Or.inr (Or.inr ⟨h.symm, hs⟩)
  · exact Or.inr (Or.inl h)

theorem ctxLe_trans (essC : List Str) : ∀ a b c, ctxLe essC a b = true →
    ctxLe essC b c = true → ctxLe essC a c = true := by
  intro a b c hab hbc
  unfold ctxLe at hab hbc ⊢
  simp only [decide_eq_true_eq] at hab hbc ⊢
  rcases hab with h1 | ⟨h1, s1⟩ <;> rcases hbc with h2 | ⟨h2, s2⟩
  · exact Or.inl (h1.trans h2)
  · exact Or.inl (h2 ▸ h1)
  · exact Or.inl (h1 ▸ h2)
  · exact Or.inr ⟨h1.trans h2, s2.trans s1⟩

/-- **C3.** The context selector's output starts with exactly the
essential names present among the available documents, in essential-list
order, regardless of their scores; every remaining recommended entry is
non-essential, and after them the output lists the non-essential entries
as a permutation sorted by descending score in which entries of equal
score keep their insertion order. -/
theorem inferContext_order (intent : Intent) (contextFiles : ContextMap)
    (filterByRelevance : Bool) (minRelevance : ℚ)
    (includeLatestCommit includeHistory : Str) (essC : List Str)
    (hnd : essC.Nodup) :
    ∃ R : List (Str × ℚ),
      recommendedWithScores intent contextFiles filterByRelevance minRelevance
          includeLatestCommit includeHistory essC
        = essEntries contextFiles essC ++ R ∧
      (∀ p ∈ R, p.1 ∉ essC) ∧
      inferContext intent contextFiles filterByRelevance minRelevance
          includeLatestCommit includeHistory essC
        = essC.filter (fun n => decide (n ∈ ctxAvailable contextFiles))
          ++ (insSort (ctxLe essC) R).map Prod.fst ∧
      (insSort (ctxLe essC) R).Perm R ∧
      (insSort (ctxLe essC) R).Pairwise (fun a b => b.2 ≤ a.2) ∧
      ∀ q : ℚ, (insSort (ctxLe essC) R).filter (fun r => decide (r.2 = q))
        = R.filter (fun r => decide (r.2 = q)) := by
  have hE_eq : addNames (ctxAvailable contextFiles) (qNat 1) essC []
      = essEntries contextFiles essC := by
    have := addNames_char (ctxAvailable contextFiles) (qNat 1) essC [] hnd (by simp)
    simpa [essEntries] using this
  have step : ∀ (rec rec2 : List (Str × ℚ)),
      (∃ Δ, rec2 = rec ++ Δ ∧
        ∀ p ∈ Δ, p.1 ∈ ctxAvailable contextFiles ∧ p.1 ∉ rec.map Prod.fst) →
      (∃ R, rec = essEntries contextFiles essC ++ R ∧ ∀ p ∈ R, p.1 ∉ essC) →
      ∃ R, rec2 = essEntries contextFiles essC ++ R ∧ ∀ p ∈ R, p.1 ∉ essC := by
    rintro rec rec2 ⟨Δ, hΔ, hprop⟩ ⟨R, hR, hRprop⟩
    refine ⟨R ++ Δ, by rw [hΔ, hR, List.append_assoc], ?_⟩
    intro p hp
    rcases List.mem_append.mp hp with h1 | h2
    · exact hRprop p h1
    · have hpr := hprop p h2
      intro hmem
      apply hpr.2
      rw [hR, List.map_append]
      refine List.mem_append.mpr (Or.inl ?_)
      rw [essEntries_fst]
      exact List.mem_filter.mpr ⟨hmem, by simpa using hpr.1⟩
  have h1 : ∃ R, addNames (ctxAvailable contextFiles) (qNat 1) essC []
      = essEntries contextFiles essC ++ R ∧ ∀ p ∈ R, p.1 ∉ essC := by
    rw [hE_eq]
    exact ⟨[], by simp, by simp⟩
  have h2 := step _ _ (addNames_delta (ctxAvailable contextFiles) (qOf 9 10)
    [str "project_structure"] _) h1
  have h3 := step _ _ (addNames_delta (ctxAvailable contextFiles) (qOf 4 5)
    intent.references.context _) h2
  have h4 := step _ _ (addNames_delta (ctxAvailable contextFiles) (qOf 7 10)
    intent.types _) h3
  have h5 := step _ _ (phaseSpecial_delta contextFiles (inferKeywords intent)
    (inferTaskType intent) (str "latest_commit") includeLatestCommit minRelevance _) h4
  have h6 := step _ _ (phaseSpecial_delta contextFiles (inferKeywords intent)
    (inferTaskType intent) (str "history") includeHistory minRelevance _) h5
  have h7 := step _ _ (phaseRelevance_delta contextFiles (inferKeywords intent)
    (inferTaskType intent) minRelevance filterByRelevance _) h6
  obtain ⟨R, hR, hRprop⟩ : ∃ R, recommendedWithScores intent contextFiles
      filterByRelevance minRelevance includeLatestCommit includeHistory essC
      = essEntries contextFiles essC ++ R ∧ ∀ p ∈ R, p.1 ∉ essC := h7
  have hfront : ∀ e ∈ essEntries contextFiles essC,
      ∀ z ∈ essEntries contextFiles essC ++ R, ctxLe essC e z = true := by
    intro e he z hz
    have he2 := mem_essEntries contextFiles essC e he
    have hre : essRank essC e.1 = 0 := by
      unfold essRank
      rw [if_pos he2.1]
    unfold ctxLe
    simp only [decide_eq_true_eq]
    rcases List.mem_append.mp hz with hz1 | hz2
    · have hz3 := mem_essEntries contextFiles essC z hz1
      have hrz : essRank essC z.1 = 0 := by
        unfold essRank
        rw [if_pos hz3.1]
      exact Or.inr ⟨by rw [hre, hrz], by rw [he2.2, hz3.2]⟩
    · have hz3 := hRprop z hz2
      have hrz : essRank essC z.1 = 1 := by
        unfold essRank
        rw [if_neg hz3]
      exact Or.inl (by rw [hre, hrz]; omega)
  have hsorteq : insSort (ctxLe essC) (essEntries contextFiles essC ++ R)
      = essEntries contextFiles essC ++ insSort (ctxLe essC) R :=
    insSort_append_front _ _ _ hfront
  refine ⟨R, hR, hRprop, ?_, insSort_perm _ _, ?_, ?_⟩
  · show (insSort (ctxLe essC) (recommendedWithScores intent contextFiles
        filterByRelevance minRelevance includeLatestCommit includeHistory essC)).map
        Prod.fst = _
    rw [hR, hsorteq, List.map_append, essEntries_fst]
  · have hp := insSort_pairwise (ctxLe essC) (ctxLe_total essC) (ctxLe_trans essC) R
    refine hp.imp_of_mem ?_
    intro a b ha hb hle
    have ha2 := hRprop a ((insSort_perm _ R).mem_iff.mp ha)
    have hb2 := hRprop b ((insSort_perm _ R).mem_iff.mp hb)
    unfold ctxLe at hle
    simp only [decide_eq_true_eq] at hle
    have hra : essRank essC a.1 = 1 := by
      unfold essRank
      rw [if_neg ha2]
    have hrb : essRank essC b.1 = 1 := by
      unfold essRank
      rw [if_neg hb2]
    rcases hle with h | ⟨_, hs⟩
    · rw [hra, hrb] at h
      omega
    · exact hs
  · intro q
    refine insSort_filter_stable _ _ _ ?_
    intro x hx y hy hpx hpy
    have hx2 := hRprop x hx
    have hy2 := hRprop y hy
    simp only [decide_eq_true_eq] at hpx hpy
    unfold ctxLe
    simp only [decide_eq_true_eq]
    refine Or.inr ⟨?_, ?_⟩
    · unfold essRank
      rw [if_neg hx2, if_neg hy2]
    · rw [hpx, hpy]

theorem phaseSpecial_mem_of_include (cf : ContextMap) (kws : List Str) (tt mode : Str)
    (minr : ℚ) (rec : List (Str × ℚ)) (name : Str)
    (hav : name ∈ ctxAvailable cf)
    (hinc : (handleSpecialContext name cf kws tt mode minr).1 = true) :
    name ∈ (phaseSpecial cf kws tt name mode minr rec).map Prod.fst := by
  unfold phaseSpecial
  by_cases h1 : name ∈ ctxAvailable cf ∧ name ∉ rec.map Prod.fst
  · rw [if_pos h1, if_pos hinc, List.map_append]
    simp
  · rw [if_neg h1]
    rcases Decidable.em (name ∈ rec.map Prod.fst) with h | h
    · exact h
    · exact absurd ⟨hav, h⟩ h1

theorem phaseRelevance_mem (cf : ContextMap) (kws : List Str) (tt : Str) (minr : ℚ)
    (fbr : Bool) (rec : List (Str × ℚ)) (name : Str)
    (h : name ∈ rec.map Prod.fst) :
    name ∈ (phaseRelevance cf kws tt minr fbr rec).map Prod.fst := by
  obtain ⟨Δ, hΔ, _⟩ := phaseRelevance_delta cf kws tt minr fbr rec
  rw [hΔ, List.map_append]
  exact List.mem_append.mpr (Or.inl h)

/-- **C2 counterexample.** Under mode auto, a non-bugfix task type with no
exclusion, and threshold 0, a present `history` document with an empty body
is excluded outright, although its relevance score 0 reaches the effective
threshold 0 × 0.7: inclusion is not "exactly when the score reaches the
effective threshold". -/
theorem handleSpecialContext_counterexample :
    handleSpecialContext (str "history") [(str "history", [])] []
        (str "general") (str "auto") 0 = (false, 0) ∧
    shouldIncludeContext (str "general") (str "history") = true ∧
    qMul 0 (qOf 7 10)
      ≤ scoreRelevance (ctxContent [(str "history", [])] (str "history")) [] := by
  decide

/-- **C2 (amended).** `handleSpecialContext`: mode always includes at score
0.5 and mode never excludes; under any other mode, a bugfix task type
includes at score 0.7, a task type whose exclusion list names the document
excludes, and otherwise the document body is scored against the keywords
and included exactly when the score reaches the effective threshold
(minRelevance × 0.7 for history, minRelevance otherwise) — except that a
document with a missing or empty body is excluded outright before being
scored. Moreover a bugfix intent with `includeHistory = auto` and a present
history document always puts `history` in the selector's output. -/
theorem handleSpecialContext_spec (contextName : Str) (cf : ContextMap)
    (kws : List Str) (tt mode : Str) (minr : ℚ) (intent : Intent) (fbr : Bool)
    (incLC : Str) (essC : List Str) :
    (mode = str "always" →
      handleSpecialContext contextName cf kws tt mode minr = (true, qOf 1 2)) ∧
    (mode = str "never" →
      handleSpecialContext contextName cf kws tt mode minr = (false, 0)) ∧
    (mode ≠ str "always" → mode ≠ str "never" → tt = str "bugfix" →
      handleSpecialContext contextName cf kws tt mode minr = (true, qOf 7 10)) ∧
    (mode ≠ str "always" → mode ≠ str "never" → tt ≠ str "bugfix" →
      shouldIncludeContext tt contextName = false →
      handleSpecialContext contextName cf kws tt mode minr = (false, 0)) ∧
    (∀ content : Str, mode ≠ str "always" → mode ≠ str "never" → tt ≠ str "bugfix" →
      shouldIncludeContext tt contextName = true →
      ctxLookup cf contextName = some content → content ≠ [] →
      handleSpecialContext contextName cf kws tt mode minr
        = (decide ((if contextName = str "history" then qMul minr (qOf 7 10) else minr)
            ≤ scoreRelevance content kws), scoreRelevance content kws)) ∧
    (mode ≠ str "always" → mode ≠ str "never" → tt ≠ str "bugfix" →
      shouldIncludeContext tt contextName = true →
      (ctxLookup cf contextName = none ∨ ctxLookup cf contextName = some []) →
      handleSpecialContext contextName cf kws tt mode minr = (false, 0)) ∧
    (inferTaskType intent = str "bugfix" → str "history" ∈ ctxAvailable cf →
      str "history" ∈ inferContext intent cf fbr minr incLC (str "auto") essC) := by
  refine ⟨?_, ?_, ?_, ?_, ?_, ?_, ?_⟩
  · intro h
    unfold handleSpecialContext
    rw [if_pos h]
  · intro h
    unfold handleSpecialContext
    rw [if_neg (by rw [h]; decide), if_pos h]
  · intro h1 h2 h3
    unfold handleSpecialContext
    rw [if_neg h1, if_neg h2, if_pos h3]
  · intro h1 h2 h3 h4
    unfold handleSpecialContext
    rw [if_neg h1, if_neg h2, if_neg h3, if_pos h4]
  · intro content h1 h2 h3 h4 h5 h6
    unfold handleSpecialContext
    rw [if_neg h1, if_neg h2, if_neg h3, if_neg (by simp [h4])]
    simp only [h5]
    rw [if_neg h6]
  · intro h1 h2 h3 h4 hlook
    unfold handleSpecialContext
    rw [if_neg h1, if_neg h2, if_neg h3, if_neg (by simp [h4])]
    rcases hlook with h5 | h5 <;> simp [h5]
  · intro htt hav
    have hinc : (handleSpecialContext (str "history") cf (inferKeywords intent)
        (inferTaskType intent) (str "auto") minr).1 = true := by
      unfold handleSpecialContext
      rw [if_neg (by decide : ¬ (str "auto" = str "always")),
        if_neg (by decide : ¬ (str "auto" = str "never")), if_pos htt]
    have hstep : str "history" ∈ (recommendedWithScores intent cf fbr minr incLC
        (str "auto") essC).map Prod.fst :=
      phaseRelevance_mem _ _ _ _ _ _ _
        (phaseSpecial_mem_of_include _ _ _ _ _ _ _ hav hinc)
    obtain ⟨p, hp, hfst⟩ := List.mem_map.mp hstep
    exact hfst ▸ List.mem_map_of_mem Prod.fst
      ((insSort_perm (ctxLe essC) _).mem_iff.mpr hp)

theorem inferContext_order_witness :
    ∃ R : List (Str × ℚ),
      recommendedWithScores ⟨[], [], [], [], [], ⟨[], []⟩, [], [], 0⟩
          [(str "persona", str "p")] true 0 (str "auto") (str "auto") [str "persona"]
        = essEntries [(str "persona", str "p")] [str "persona"] ++ R ∧
      (∀ p ∈ R, p.1 ∉ [str "persona"]) ∧
      inferContext ⟨[], [], [], [], [], ⟨[], []⟩, [], [], 0⟩
          [(str "persona", str "p")] true 0 (str "auto") (str "auto") [str "persona"]
        = ([str "persona"]).filter
            (fun n => decide (n ∈ ctxAvailable [(str "persona", str "p")]))
          ++ (insSort (ctxLe [str "persona"]) R).map Prod.fst ∧
      (insSort (ctxLe [str "persona"]) R).Perm R ∧
      (insSort (ctxLe [str "persona"]) R).Pairwise (fun a b => b.2 ≤ a.2) ∧
      ∀ q : ℚ, (insSort (ctxLe [str "persona"]) R).filter (fun r => decide (r.2 = q))
        = R.filter (fun r => decide (r.2 = q)) :=
  inferContext_order ⟨[], [], [], [], [], ⟨[], []⟩, [], [], 0⟩ [(str "persona", str "p")]
    true 0 (str "auto") (str "auto") [str "persona"] (by decide)

set_option maxRecDepth 100000 in
theorem handleSpecialContext_spec_witness :
    handleSpecialContext (str "history") [(str "history", str "log")] []
        (str "general") (str "auto") (qOf 3 10)
      = (decide ((if str "history" = str "history"
            then qMul (qOf 3 10) (qOf 7 10) else qOf 3 10)
          ≤ scoreRelevance (str "log") []), scoreRelevance (str "log") []) ∧
    str "history" ∈ inferContext
        ⟨str "fix crash", str "fix", [], [], [], ⟨[], []⟩, [], [], 0⟩
        [(str "history", str "log")] true (qOf 3 10) (str "auto") (str "auto") [] :=
  ⟨(handleSpecialContext_spec (str "history") [(str "history", str "log")] []
      (str "general") (str "auto") (qOf 3 10)
      ⟨str "fix crash", str "fix", [], [], [], ⟨[], []⟩, [], [], 0⟩ true (str "auto") []).2.2.2.2.1
      (str "log") (by decide) (by decide) (by decide) (by decide) (by decide) (by decide),
    (handleSpecialContext_spec (str "history") [(str "history", str "log")] []
      (str "general") (str "auto") (qOf 3 10)
      ⟨str "fix crash", str "fix", [], [], [], ⟨[], []⟩, [], [], 0⟩ true (str "auto") []).2.2.2.2.2.2
      (by decide) (by decide)⟩

end CreatePrompt
